import Mathlib

/-!
# json2csv: newline-delimited JSON to delimited rows

A verification development for `main.go`.  Go values are embedded as follows.

* `string` is `String`; a `[]byte` line is a `List Char` (one `Char` per byte:
  the only byte of a line the program looks at is the newline terminator).
* `map[string]interface{}` is `GoMap`: `none` is the nil map, `some m` an
  association list read with first-match lookup.
* `interface{}` holding a decoded JSON value is `Value`.
* `float64` is `Float64`: a finite value is the dyadic rational it denotes.
* A panic (index out of range) is the result `none`.
* Library functions the program calls but does not define (`json.Unmarshal`,
  `fmt.Sprintf` with `%f` and `%+v`) are parameters.
-/

namespace Json2csv

/-! ## Data model -/

/-- A `float64`.  A finite value is the dyadic rational `m * 2 ^ e` (every
finite `float64` has this form, with `|m| < 2 ^ 53` and `-1074 ≤ e ≤ 971`); both
zeros are `fin 0 e`. -/
inductive Float64
  | fin (m : Int) (e : Int)
  | inf (neg : Bool)
  | nan
  deriving DecidableEq

/-- The finite values a `float64` can hold. -/
def Float64.representable : Float64 → Prop
  | Float64.fin m e => m.natAbs < 2 ^ 53 ∧ -1074 ≤ e ∧ e ≤ 971
  | _ => True

/-- A decoded JSON value held in an `interface{}`; `null` is the nil interface. -/
inductive Value
  | null
  | number (f : Float64)
  | string (s : String)
  | bool (b : Bool)
  | object (m : List (String × Value))
  | array (a : List Value)

/-- A `map[string]interface{}`; `none` is the nil map. -/
abbrev GoMap := Option (List (String × Value))

/-- The comma-ok map index `v, ok := data[k]`: `none` when `ok` is false.
Indexing the nil map finds nothing. -/
def GoMap.index (data : GoMap) (k : String) : Option Value :=
  match data with
  | none => none
  | some m => m.lookup k

/-- The type assertion `x.(map[string]interface{})` in its comma-ok form applied
to the result of a map index: the nil map unless the key is present and holds a
mapping. -/
def assertMap : Option Value → GoMap
  | some (Value.object m) => some m
  | _ => none

/-- The functions of package `fmt` that `get_value` calls on values whose
rendering the program leaves to the library. -/
structure Fmt where
  /-- The call `fmt.Sprintf("%f", f)`. -/
  sprintf_f : Float64 → String
  /-- The call `fmt.Sprintf("%+v", v)`. -/
  sprintf_v : Value → String

/-- The call `math.Mod(f, 1.0)`: the remainder of truncated division, with the sign of
`f`; NaN for an infinite or NaN argument. -/
def Float64.mod1 : Float64 → Float64
  | Float64.fin m e =>
      if 0 ≤ e then Float64.fin 0 0
      else Float64.fin (Int.tmod m (2 ^ (-e).toNat : Nat)) e
  | _ => Float64.nan

/-- The comparison `x == 0.0` on `float64`: false for NaN. -/
def Float64.eqZero : Float64 → Bool
  | Float64.fin m _ => decide (m = 0)
  | _ => false

/-- The least `int` on a 64-bit platform. -/
def minInt64 : Int := -(2 ^ 63)

/-- The conversion `int(f)` with a 64-bit `int`: truncation toward zero when the
result is representable.  Otherwise the Go specification leaves the value
implementation-dependent; this is the amd64 result (the least `int`). -/
def Float64.toInt : Float64 → Int
  | Float64.fin m e =>
      let t := if 0 ≤ e then m * (2 ^ e.toNat : Nat) else Int.tdiv m (2 ^ (-e).toNat : Nat)
      if minInt64 ≤ t ∧ t < 2 ^ 63 then t else minInt64
  | _ => minInt64

/-- The call `fmt.Sprintf("%d", n)`: decimal digits with a leading minus sign for a
negative number. -/
def Sprintf_d (n : Int) : String :=
  if n < 0 then String.mk ('-' :: Nat.toDigits 10 n.natAbs)
  else String.mk (Nat.toDigits 10 n.natAbs)

/-! ## `strings.Split(key, ".")` -/

/-- Splitting a character list at every occurrence of `sep`. -/
def splitChars (sep : Char) : List Char → List (List Char)
  | [] => [[]]
  | c :: cs =>
      if c = sep then [] :: splitChars sep cs
      else
        match splitChars sep cs with
        | [] => [[c]]
        | seg :: segs => (c :: seg) :: segs

/-- The call `strings.Split(s, ".")`: the substrings of `s` between the dots. -/
def strings.Split (s : String) : List String :=
  (splitChars '.' s.toList).map String.mk

/-! ## `get_value` -/

/-- The function `get_value(data, keyparts)`.  `none` is the index-out-of-range panic of
`keyparts[0]` on an empty path. -/
def get_value (fmt : Fmt) : GoMap → List String → Option String
  | _, [] => none
  | data, [k] =>
      match data.index k with
      | some Value.null => some ""
      | some (Value.number f) =>
          if f.mod1.eqZero then some (Sprintf_d f.toInt)
          else some (fmt.sprintf_f f)
      | some v => some (fmt.sprintf_v v)
      | none => some ""
  | data, k :: k2 :: rest => get_value fmt (assertMap (data.index k)) (k2 :: rest)

/-- The function `get_value` together with the number of invocations of `get_value` the call
makes, itself included. -/
def get_value_counted (fmt : Fmt) : GoMap → List String → Option String × Nat
  | _, [] => (none, 1)
  | data, [k] => (get_value fmt data [k], 1)
  | data, k :: k2 :: rest =>
      let r := get_value_counted fmt (assertMap (data.index k)) (k2 :: rest)
      (r.1, r.2 + 1)

/-! ## The line reader -/

/-- The error value returned by `ReadBytes`: `io.EOF` or some other error. -/
inductive ReadErr
  | EOF
  | other (msg : String)
  deriving DecidableEq

/-- What one call `r.ReadBytes('\n')` returns; `err = none` is the nil error. -/
structure ReadResult where
  line : List Char
  err : Option ReadErr
  deriving DecidableEq

/-- A `LineReader` over a stream that ends: the results of its successive
`ReadBytes` calls.  Once they are used up the reader is at end of stream, and
every further call returns no bytes and `io.EOF`. -/
abbrev LineReader := List ReadResult

/-- The call `r.ReadBytes('\n')`: its result and the reader afterwards. -/
def LineReader.ReadBytes : LineReader → ReadResult × LineReader
  | [] => (⟨[], some ReadErr.EOF⟩, [])
  | x :: rest => (x, rest)

/-- The reader `bufio.NewReader` gives over the finite byte stream `input`, when
the stream itself raises no error: `ReadBytes('\n')` returns the bytes up to and
including the next newline with a nil error, or, when no newline is left, the
remaining bytes with `io.EOF`. -/
def bufioReader : List Char → LineReader
  | [] => [⟨[], some ReadErr.EOF⟩]
  | c :: cs =>
      if c = '\n' then ⟨[c], none⟩ :: bufioReader cs
      else
        match bufioReader cs with
        | [] => [⟨[c], some ReadErr.EOF⟩]
        | x :: rest => ⟨c :: x.line, x.err⟩ :: rest

/-! ## Decoding -/

/-- What `log.Printf` is called with. -/
inductive LogEntry
  /-- The arguments `"ERROR Decoding JSON at line %d: %s\n%s", line_count, err, line`. -/
  | decodeError (line_count : Nat) (err : String) (line : List Char)
  /-- The arguments `"Input Error: %s", err`. -/
  | inputError (err : String)
  deriving DecidableEq

/-- The library call `json.Unmarshal(line, &data)` on a nil
`data map[string]interface{}`: the error, or the value `data` holds afterwards
(still the nil map when the line is the JSON literal `null`). -/
abbrev Unmarshal := List Char → Except String GoMap

/-- The placeholder `futureUnmarshal(line, line_count)` returns: the channel on
which the decode task of `line` delivers. -/
structure Placeholder where
  line : List Char
  line_count : Nat
  deriving DecidableEq

/-- The decode task of `futureUnmarshal(line, line_count)`: what a receive on the
returned channel yields, and what the task logs.  On an error the task logs and
closes the channel without sending, so the receive yields the nil map. -/
def futureUnmarshal (unmarshal : Unmarshal) (line : List Char) (line_count : Nat) :
    GoMap × List LogEntry :=
  match unmarshal line with
  | Except.error err => (none, [LogEntry.decodeError line_count err line])
  | Except.ok data => (data, [])

/-! ## `jsonIterator` -/

/-- What the goroutine of `jsonIterator` has done when it closes `ch`. -/
structure Iterated where
  /-- The placeholders sent on `ch`, in order. -/
  placeholders : List Placeholder
  /-- What the goroutine logged. -/
  log : List LogEntry
  /-- The reads it never made. -/
  unread : LineReader
  deriving DecidableEq

/-- Prepending a placeholder to the ones the rest of the loop sends. -/
def Iterated.send (p : Placeholder) (it : Iterated) : Iterated :=
  { it with placeholders := p :: it.placeholders }

/-- The test `err != nil && err != io.EOF` on what a read returned: the message
of such an error. -/
def ReadResult.failure (x : ReadResult) : Option String :=
  match x.err with
  | some (ReadErr.other msg) => some msg
  | some ReadErr.EOF => none
  | none => none

/-- The `for` loop of `jsonIterator`, entered with the current values of `err`
and `line_count`.  On a reader at end of stream the loop ends at once: either
`err` is already `io.EOF`, or the read returns no bytes and `io.EOF`, which is
skipped, and the next test of `err` breaks. -/
def jsonIterator.loop : LineReader → Option ReadErr → Nat → Iterated
  | [], _, _ => ⟨[], [], []⟩
  | x :: r, err, line_count =>
      if err = some ReadErr.EOF then ⟨[], [], x :: r⟩
      else
        match x.failure with
        | some msg => ⟨[], [LogEntry.inputError msg], r⟩
        | none =>
            if x.line.length = 0 then jsonIterator.loop r x.err (line_count + 1)
            else (jsonIterator.loop r x.err (line_count + 1)).send ⟨x.line, line_count + 1⟩

/-- The function `jsonIterator(r, keys)`: the placeholders it sends before closing `ch`. -/
def jsonIterator (r : LineReader) : Iterated :=
  jsonIterator.loop r none 0

/-! ## `json2csv` -/

/-- The loop `for i, expanded_key := range expanded_keys { record[i] = ... }`
from index `i` on, over the row buffer `record`; `none` is a panic, of
`get_value` or of the assignment to `record[i]` when `i` is out of range. -/
def fillRecord (fmt : Fmt) (data : GoMap) :
    List (List String) → Nat → List String → Option (List String)
  | [], _, record => some record
  | expanded_key :: rest, i, record =>
      match get_value fmt data expanded_key with
      | none => none
      | some v =>
          if i < record.length then fillRecord fmt data rest (i + 1) (record.set i v)
          else none

/-- What `json2csv` has done when it returns. -/
structure Output where
  /-- The arguments of the successive `w.Write` calls. -/
  written : List (List String)
  /-- The log, decode tasks in line order (they log concurrently). -/
  log : List LogEntry
  deriving DecidableEq

/-- The loop `for chandata := range jsonIterator(r, keys)` over the placeholders
received, with the row buffer `record`: the rows written and the decode log. -/
def json2csv.loop (unmarshal : Unmarshal) (fmt : Fmt) (expanded_keys : List (List String)) :
    List Placeholder → List String → Option (List (List String) × List LogEntry)
  | [], _ => some ([], [])
  | chandata :: rest, record =>
      let received := futureUnmarshal unmarshal chandata.line chandata.line_count
      match received.1 with
      | none =>
          (json2csv.loop unmarshal fmt expanded_keys rest record).map
            fun o => (o.1, received.2 ++ o.2)
      | some m =>
          match fillRecord fmt (some m) expanded_keys 0 record with
          | none => none
          | some record =>
              (json2csv.loop unmarshal fmt expanded_keys rest record).map
                fun o => (record :: o.1, received.2 ++ o.2)

/-- The function `json2csv(r, w, keys, printHeader)`; `none` is a panic. -/
def json2csv (unmarshal : Unmarshal) (fmt : Fmt) (r : LineReader) (keys : List String)
    (printHeader : Bool) : Option Output :=
  let expanded_keys := keys.map strings.Split
  let n_keys := expanded_keys.length
  let record := List.replicate n_keys ""
  let header := if printHeader then [keys] else []
  let it := jsonIterator r
  (json2csv.loop unmarshal fmt expanded_keys it.placeholders record).map
    fun o => ⟨header ++ o.1, o.2 ++ it.log⟩

/-! ## The goroutines

`json2csv` runs as three kinds of goroutine: the consumer (the loop of
`json2csv` itself), the producer (the goroutine of `jsonIterator`) and one decode
task per placeholder (the goroutine of `futureUnmarshal`).  A scheduler picks,
step by step, a goroutine that is not blocked; a schedule is the list of its
picks.  Whatever the number of threads, an execution is such an interleaving. -/

/-- Where the decode task of a placeholder stands. -/
inductive TaskState
  /-- The call of `json.Unmarshal` has not returned yet. -/
  | running
  /-- The task is blocked in `c <- data`. -/
  | sending (data : GoMap)
  /-- The channel `c` is closed: the task returned. -/
  | closed

/-- A decode task with the arguments of its `futureUnmarshal` call.  Its index
in the list of tasks stands for its channel `c`. -/
structure Task where
  line : List Char
  line_count : Nat
  state : TaskState

/-- The placeholder of a task. -/
def Task.placeholder (t : Task) : Placeholder := ⟨t.line, t.line_count⟩

/-- Where the goroutine of `jsonIterator` stands. -/
inductive Producer
  /-- At the head of the loop, with the reader and the values of `err` and
  `line_count`. -/
  | reading (r : LineReader) (err : Option ReadErr) (line_count : Nat)
  /-- At `ch <- c` for the task `c` just started. -/
  | sending (c : Nat) (r : LineReader) (err : Option ReadErr) (line_count : Nat)
  /-- Returned: `ch` is closed. -/
  | closed

/-- Where the loop of `json2csv` stands. -/
inductive Consumer
  /-- At `range`, about to receive a placeholder from `ch`. -/
  | receiving
  /-- At `data := <-chandata` for the placeholder `c`. -/
  | waiting (c : Nat)
  /-- Past the loop. -/
  | done
  deriving DecidableEq

/-- The state of an execution. -/
structure State where
  producer : Producer
  /-- The placeholders buffered in `ch`, oldest first. -/
  ch : List Nat
  /-- The decode tasks started so far. -/
  tasks : List Task
  consumer : Consumer
  /-- The row buffer `record`. -/
  record : List String
  /-- The arguments of the `w.Write` calls made so far. -/
  written : List (List String)
  /-- The log so far. -/
  log : List LogEntry

/-- What the execution is run with. -/
structure Config where
  unmarshal : Unmarshal
  fmt : Fmt
  keys : List String

/-- The goroutine a scheduler picks. -/
inductive Action
  | produce
  | decode (c : Nat)
  | consume
  deriving DecidableEq

/-- The capacity of `ch`. -/
def chCapacity : Nat := 1000

/-- The state when `json2csv` enters its loop: the header is written and the
goroutine of `jsonIterator` is started. -/
def State.init (cfg : Config) (r : LineReader) (printHeader : Bool) : State :=
  { producer := Producer.reading r none 0
    ch := []
    tasks := []
    consumer := Consumer.receiving
    record := List.replicate (cfg.keys.map strings.Split).length ""
    written := if printHeader then [cfg.keys] else []
    log := [] }

/-- A step of the goroutine of `jsonIterator`: one pass through its loop up to
the send, or the send `ch <- c`, which blocks (`none`) while `ch` is full. -/
def State.produce (s : State) : Option State :=
  match s.producer with
  | Producer.reading r err line_count =>
      if err = some ReadErr.EOF then some { s with producer := Producer.closed }
      else
        let x := r.ReadBytes.1
        let r := r.ReadBytes.2
        let line_count := line_count + 1
        match x.failure with
        | some msg =>
            some { s with
              producer := Producer.closed
              log := s.log ++ [LogEntry.inputError msg] }
        | none =>
            if x.line.length = 0 then
              some { s with producer := Producer.reading r x.err line_count }
            else
              some { s with
                producer := Producer.sending s.tasks.length r x.err line_count
                tasks := s.tasks ++ [⟨x.line, line_count, TaskState.running⟩] }
  | Producer.sending c r err line_count =>
      if s.ch.length < chCapacity then
        some { s with ch := s.ch ++ [c], producer := Producer.reading r err line_count }
      else none
  | Producer.closed => none

/-- A step of the decode task `c`: the call of `json.Unmarshal`, after which the
task logs and returns, or stands at its send. -/
def State.decode (cfg : Config) (s : State) (c : Nat) : Option State :=
  match s.tasks[c]? with
  | none => none
  | some t =>
      match t.state with
      | TaskState.running =>
          match cfg.unmarshal t.line with
          | Except.error err =>
              some { s with
                tasks := s.tasks.set c { t with state := TaskState.closed }
                log := s.log ++ [LogEntry.decodeError t.line_count err t.line] }
          | Except.ok data =>
              some { s with tasks := s.tasks.set c { t with state := TaskState.sending data } }
      | TaskState.sending _ => none
      | TaskState.closed => none

/-- The body of the loop of `json2csv` once `data` is received; `none` is a
panic. -/
def State.deliver (cfg : Config) (s : State) (data : GoMap) : Option State :=
  match data with
  | none => some { s with consumer := Consumer.receiving }
  | some m =>
      match fillRecord cfg.fmt (some m) (cfg.keys.map strings.Split) 0 s.record with
      | none => none
      | some record =>
          some { s with
            consumer := Consumer.receiving
            record := record
            written := s.written ++ [record] }

/-- A step of the loop of `json2csv`: the receive of the next placeholder from
`ch`, which blocks while `ch` is empty and open, or the receive of `data` from
the placeholder, which blocks until its task sends or returns, followed by the
loop body. -/
def State.consume (cfg : Config) (s : State) : Option State :=
  match s.consumer with
  | Consumer.receiving =>
      match s.ch with
      | c :: rest => some { s with ch := rest, consumer := Consumer.waiting c }
      | [] =>
          match s.producer with
          | Producer.closed => some { s with consumer := Consumer.done }
          | Producer.reading _ _ _ => none
          | Producer.sending _ _ _ _ => none
  | Consumer.waiting c =>
      match s.tasks[c]? with
      | none => none
      | some t =>
          match t.state with
          | TaskState.running => none
          | TaskState.sending data =>
              State.deliver cfg
                { s with tasks := s.tasks.set c { t with state := TaskState.closed } } data
          | TaskState.closed => State.deliver cfg s none
  | Consumer.done => none

/-- One step of the goroutine picked; `none` when it is blocked or has returned. -/
def State.step (cfg : Config) (s : State) : Action → Option State
  | Action.produce => s.produce
  | Action.decode c => s.decode cfg c
  | Action.consume => s.consume cfg

/-- The execution of a schedule. -/
def State.run (cfg : Config) : State → List Action → Option State
  | s, [] => some s
  | s, a :: schedule =>
      match s.step cfg a with
      | none => none
      | some s2 => State.run cfg s2 schedule

/-! ## A sample decoder -/

/-- The line `{"x":1}`. -/
def lineX1 : List Char := "\x7b\"x\":1\x7d".toList

/-- The line `{"x":2}`. -/
def lineX2 : List Char := "\x7b\"x\":2\x7d".toList

/-- The line `{"a":1,"b":{"c":2}}`. -/
def lineAB : List Char := "\x7b\"a\":1,\"b\":\x7b\"c\":2\x7d\x7d".toList

/-- The record `{"x":n}` for an integer `n`. -/
def recordX (n : Int) : List (String × Value) := [("x", Value.number (Float64.fin n 0))]

/-- The record `{"a":1,"b":{"c":2}}`. -/
def recordAB : List (String × Value) :=
  [("a", Value.number (Float64.fin 1 0)),
    ("b", Value.object [("c", Value.number (Float64.fin 2 0))])]

/-- The input `{"x":1}\nNOTJSON\n{"x":2}`. -/
def inputWithBadLine : List Char := lineX1 ++ '\n' :: ("NOTJSON".toList ++ '\n' :: lineX2)

/-- A decoder that agrees with `json.Unmarshal` on the lines the examples use,
with or without their newline: the objects decode to their mappings, the literal
`null` decodes without error and leaves the map nil, and every other line (a
blank line and `NOTJSON` among them) is a syntax error. -/
def sampleUnmarshal : Unmarshal := fun line =>
  if line = lineX1 ++ ['\n'] ∨ line = lineX1 then Except.ok (some (recordX 1))
  else if line = lineX2 ++ ['\n'] ∨ line = lineX2 then Except.ok (some (recordX 2))
  else if line = lineAB ++ ['\n'] ∨ line = lineAB then Except.ok (some recordAB)
  else if line = "null\n".toList ∨ line = "null".toList then Except.ok none
  else Except.error "invalid JSON"

/-- A stand-in for the two `fmt` renderings the examples never reach. -/
def sampleFmt : Fmt := ⟨fun _ => "%f", fun _ => "%+v"⟩

/-- The sample configuration with the single key `x`. -/
def sampleConfig : Config := ⟨sampleUnmarshal, sampleFmt, ["x"]⟩

/-- A schedule over the input `{"x":1}\nNOTJSON\n{"x":2}` in which the producer
first starts all three decode tasks, the third line is decoded first, then the
second, and the first line only once the consumer is already waiting for it. -/
def lastLineDecodedFirst : List Action :=
  [Action.produce, Action.produce, Action.produce, Action.produce, Action.produce,
    Action.produce, Action.decode 2, Action.decode 1, Action.consume, Action.decode 0,
    Action.consume, Action.consume, Action.consume, Action.consume, Action.consume,
    Action.produce, Action.consume]

/-! ## Specification vocabulary -/

/-- The mapping reached from `data` by following the segments `pre` through
nested mappings: the nil map as soon as a segment is absent or does not hold a
mapping. -/
def descend (data : GoMap) : List String → GoMap
  | [] => data
  | k :: rest => descend (assertMap (data.index k)) rest

/-- The record a line decodes to, when its decode yields a mapping. -/
def decodesTo (unmarshal : Unmarshal) (raw : List Char) : Option (List (String × Value)) :=
  match unmarshal raw with
  | Except.ok (some m) => some m
  | _ => none

/-- The row of a record: for each key, in order, what `get_value` returns on the
key split at its dots. -/
def rowOf (fmt : Fmt) (keys : List String) (m : List (String × Value)) : List String :=
  keys.map fun key => (get_value fmt (some m) (strings.Split key)).getD ""

/-- The rows of a sequence of lines: one per line whose decode yields a record. -/
def rowsOf (unmarshal : Unmarshal) (fmt : Fmt) (keys : List String)
    (lines : List (List Char)) : List (List String) :=
  lines.filterMap fun raw => (decodesTo unmarshal raw).map (rowOf fmt keys)

/-- The lines a reader hands over for decoding: every read of at least one byte,
up to the first read that reports an error; the bytes read with `io.EOF` are the
last line, the bytes read with another error are dropped. -/
def linesRead : LineReader → List (List Char)
  | [] => []
  | ⟨line, none⟩ :: r => if line.length = 0 then linesRead r else line :: linesRead r
  | ⟨line, some ReadErr.EOF⟩ :: _ => if line.length = 0 then [] else [line]
  | ⟨_, some (ReadErr.other _)⟩ :: _ => []

/-- A line of the input: its content, the newline stripped, and whether a
newline ends it. -/
structure InputLine where
  content : List Char
  terminated : Bool
  deriving DecidableEq

/-- The bytes of a line as they stand in the input. -/
def InputLine.raw (l : InputLine) : List Char :=
  if l.terminated then l.content ++ ['\n'] else l.content

/-- The lines of an input: each run of bytes up to a newline, and last the bytes
after the final newline, which no newline ends (none, when the input is empty or
ends in a newline). -/
def inputLines : List Char → List InputLine
  | [] => [⟨[], false⟩]
  | c :: cs =>
      if c = '\n' then ⟨[], true⟩ :: inputLines cs
      else
        match inputLines cs with
        | [] => [⟨[c], false⟩]
        | l :: rest => ⟨c :: l.content, l.terminated⟩ :: rest

/-- An input made of the given lines, each ended by a newline. -/
def joinLines (lines : List (List Char)) : List Char :=
  lines.flatMap fun l => l ++ ['\n']

/-- Whether a log entry is a decode diagnostic. -/
def LogEntry.isDecodeError : LogEntry → Bool
  | LogEntry.decodeError _ _ _ => true
  | LogEntry.inputError _ => false

/-- What a reader over the input returns for a line. -/
def InputLine.toRead (l : InputLine) : ReadResult :=
  ⟨l.raw, if l.terminated then none else some ReadErr.EOF⟩

/-- The lines of an input that are read with at least one byte: all but an empty
run after the final newline. -/
def InputLine.isRead (l : InputLine) : Bool :=
  decide (l.content ≠ []) || l.terminated

/-- Only the last line of an input lacks its newline. -/
def wellEnded : List InputLine → Prop
  | [] => True
  | l :: rest => (l.terminated = false → rest = []) ∧ wellEnded rest

/-- The decode log of a sequence of placeholders, in their order. -/
def decodeLog (unmarshal : Unmarshal) (ps : List Placeholder) : List LogEntry :=
  ps.flatMap fun p => (futureUnmarshal unmarshal p.line p.line_count).2

/-- The integer a finite `float64` without fractional part denotes. -/
def Float64.denotesInt : Float64 → Int → Prop
  | Float64.fin m e, v =>
      if 0 ≤ e then v = m * (2 ^ e.toNat : Nat) else m = v * (2 ^ (-e).toNat : Nat)
  | _, _ => False

/-! ## The invariant of an execution -/

/-- The placeholders the goroutine of `jsonIterator` has yet to start. -/
def Producer.future : Producer → List Placeholder
  | Producer.reading r err line_count => (jsonIterator.loop r err line_count).placeholders
  | Producer.sending _ r err line_count => (jsonIterator.loop r err line_count).placeholders
  | Producer.closed => []

/-- The placeholder the producer has started and not yet sent. -/
def Producer.holding : Producer → List Nat
  | Producer.sending c _ _ _ => [c]
  | _ => []

/-- The placeholder the consumer has received and not yet resolved. -/
def Consumer.holding : Consumer → List Nat
  | Consumer.waiting c => [c]
  | _ => []

/-- A task state agrees with the decoder: what a task sends is what the line
decodes to, and a task that returned without sending found an error. -/
def TaskState.agrees (unmarshal : Unmarshal) (line : List Char) : TaskState → Prop
  | TaskState.running => True
  | TaskState.sending data => unmarshal line = Except.ok data
  | TaskState.closed => ∃ err, unmarshal line = Except.error err

/-- The invariant of an execution from `State.init cfg r printHeader`, with `n` the
number of placeholders the consumer has resolved. -/
structure Inv (cfg : Config) (r : LineReader) (printHeader : Bool) (s : State) (n : Nat) :
    Prop where
  n_le : n ≤ s.tasks.length
  ids : s.consumer.holding ++ s.ch ++ s.producer.holding =
    List.range' n (s.tasks.length - n)
  started : (jsonIterator r).placeholders =
    s.tasks.map Task.placeholder ++ s.producer.future
  written : s.written = (if printHeader then [cfg.keys] else []) ++
    rowsOf cfg.unmarshal cfg.fmt cfg.keys ((s.tasks.take n).map fun t => t.line)
  record : s.record.length = cfg.keys.length
  tasks : ∀ i t, n ≤ i → s.tasks[i]? = some t → t.state.agrees cfg.unmarshal t.line
  done : s.consumer = Consumer.done → s.producer = Producer.closed ∧ s.ch = []

/-- How many steps the producer has left at most, counted in fours. -/
def Producer.steps : Producer → Nat
  | Producer.reading r err _ => 2 * r.length + (if err = some ReadErr.EOF then 1 else 3)
  | Producer.sending _ r err _ => 2 * r.length + (if err = some ReadErr.EOF then 2 else 4)
  | Producer.closed => 0

/-- How many steps the consumer has left before it receives its next
placeholder or leaves the loop. -/
def Consumer.steps : Consumer → Nat
  | Consumer.receiving => 1
  | Consumer.waiting _ => 2
  | Consumer.done => 0

/-- The steps a decode task has left. -/
def TaskState.steps : TaskState → Nat
  | TaskState.running => 1
  | _ => 0

/-- A bound on the number of steps an execution has left. -/
def State.steps (s : State) : Nat :=
  4 * s.producer.steps + (s.tasks.map fun t => t.state.steps).sum + 2 * s.ch.length +
    s.consumer.steps

/-! ## Facts about `get_value` -/

theorem get_value_cons_cons (fmt : Fmt) (data : GoMap) (k : String) (path : List String)
    (h : path ≠ []) :
    get_value fmt data (k :: path) = get_value fmt (assertMap (data.index k)) path := by
  cases path with
  | nil => exact absurd rfl h
  | cons k2 rest => rw [get_value]

theorem get_value_nil_map (fmt : Fmt) (path : List String) (h : path ≠ []) :
    get_value fmt none path = some "" := by
  induction path with
  | nil => exact absurd rfl h
  | cons k rest ih =>
      cases rest with
      | nil => simp [get_value, GoMap.index]
      | cons k2 rest2 =>
          rw [get_value_cons_cons fmt none k (k2 :: rest2) (by simp)]
          simpa [GoMap.index, assertMap] using ih (by simp)

theorem get_value_descend (fmt : Fmt) (pre path : List String) (h : path ≠ []) :
    ∀ data : GoMap, get_value fmt data (pre ++ path) = get_value fmt (descend data pre) path := by
  induction pre with
  | nil => intro data; rfl
  | cons k pre ih =>
      intro data
      have hne : pre ++ path ≠ [] := by simp [h]
      rw [List.cons_append, get_value_cons_cons fmt data k (pre ++ path) hne, ih]
      rfl

theorem get_value_some (fmt : Fmt) (path : List String) (h : path ≠ []) :
    ∀ data : GoMap, ∃ s, get_value fmt data path = some s := by
  induction path with
  | nil => exact absurd rfl h
  | cons k rest ih =>
      intro data
      cases rest with
      | nil =>
          simp only [get_value]
          split
          · exact ⟨_, rfl⟩
          · split
            · exact ⟨_, rfl⟩
            · exact ⟨_, rfl⟩
          · exact ⟨_, rfl⟩
          · exact ⟨_, rfl⟩
      | cons k2 rest2 =>
          rw [get_value_cons_cons fmt data k (k2 :: rest2) (by simp)]
          exact ih (by simp) _

theorem get_value_counted_fst (fmt : Fmt) (path : List String) :
    ∀ data : GoMap, (get_value_counted fmt data path).1 = get_value fmt data path := by
  induction path with
  | nil => intro data; rfl
  | cons k rest ih =>
      intro data
      cases rest with
      | nil => rfl
      | cons k2 rest2 =>
          rw [get_value_counted, get_value]
          exact ih _

theorem get_value_counted_snd (fmt : Fmt) (path : List String) (h : path ≠ []) :
    ∀ data : GoMap, (get_value_counted fmt data path).2 = path.length := by
  induction path with
  | nil => exact absurd rfl h
  | cons k rest ih =>
      intro data
      cases rest with
      | nil => rfl
      | cons k2 rest2 =>
          rw [get_value_counted]
          simp only [List.length_cons]
          rw [ih (by simp)]
          simp

theorem splitChars_ne_nil (sep : Char) (cs : List Char) : splitChars sep cs ≠ [] := by
  cases cs with
  | nil => simp [splitChars]
  | cons c cs =>
      rw [splitChars]
      split
      · simp
      · split <;> simp

theorem Split_ne_nil (key : String) : strings.Split key ≠ [] := by
  simp [strings.Split, splitChars_ne_nil]

/-! ## Facts about the reader -/

theorem inputLines_ne_nil (input : List Char) : inputLines input ≠ [] := by
  cases input with
  | nil => simp [inputLines]
  | cons c cs =>
      rw [inputLines]
      split
      · simp
      · split <;> simp

theorem bufioReader_eq_map (input : List Char) :
    bufioReader input = (inputLines input).map InputLine.toRead := by
  induction input with
  | nil => simp [bufioReader, inputLines, InputLine.toRead, InputLine.raw]
  | cons c cs ih =>
      rw [bufioReader, inputLines]
      by_cases hc : c = '\n'
      · simp [hc, ih, InputLine.toRead, InputLine.raw]
      · simp only [hc, if_false]
        rw [ih]
        cases h : inputLines cs with
        | nil => exact absurd h (inputLines_ne_nil cs)
        | cons l rest =>
            cases ht : l.terminated <;>
              simp [InputLine.toRead, InputLine.raw, ht]

theorem inputLines_line (l : List Char) (hl : '\n' ∉ l) (rest : List Char) :
    inputLines (l ++ '\n' :: rest) = ⟨l, true⟩ :: inputLines rest := by
  induction l with
  | nil => simp [inputLines]
  | cons c l ih =>
      have hc : c ≠ '\n' := fun h => hl (by simp [h])
      have hl2 : '\n' ∉ l := fun h => hl (List.mem_cons_of_mem _ h)
      rw [List.cons_append, inputLines]
      simp only [hc, if_false]
      rw [ih hl2]

theorem inputLines_wellEnded (input : List Char) : wellEnded (inputLines input) := by
  induction input with
  | nil => simp [inputLines, wellEnded]
  | cons c cs ih =>
      rw [inputLines]
      by_cases hc : c = '\n'
      · simp [hc, wellEnded, ih]
      · simp only [hc, if_false]
        cases h2 : inputLines cs with
        | nil => exact absurd h2 (inputLines_ne_nil cs)
        | cons l2 rest2 =>
            rw [h2] at ih
            simpa [wellEnded] using ih

theorem linesRead_map (ls : List InputLine) (h : wellEnded ls) :
    linesRead (ls.map InputLine.toRead) = (ls.filter InputLine.isRead).map InputLine.raw := by
  induction ls with
  | nil => simp [linesRead]
  | cons l ls ih =>
      obtain ⟨content, terminated⟩ := l
      cases terminated with
      | true =>
          simp [InputLine.toRead, InputLine.raw, InputLine.isRead, linesRead, ih h.2]
      | false =>
          have hnil : ls = [] := h.1 rfl
          subst hnil
          by_cases hc : content = []
          · simp [InputLine.toRead, InputLine.raw, InputLine.isRead, linesRead, hc]
          · simp [InputLine.toRead, InputLine.raw, InputLine.isRead, linesRead, hc]

theorem linesRead_bufioReader (input : List Char) :
    linesRead (bufioReader input) =
      ((inputLines input).filter InputLine.isRead).map InputLine.raw := by
  rw [bufioReader_eq_map, linesRead_map _ (inputLines_wellEnded input)]

theorem linesRead_joinLines (lines : List (List Char)) (h : ∀ l ∈ lines, '\n' ∉ l)
    (rest : List Char) :
    linesRead (bufioReader (joinLines lines ++ rest)) =
      lines.map (fun l => l ++ ['\n']) ++ linesRead (bufioReader rest) := by
  induction lines with
  | nil => simp [joinLines]
  | cons l lines ih =>
      have hl : '\n' ∉ l := h l (by simp)
      have hrest : ∀ l2 ∈ lines, '\n' ∉ l2 := fun l2 h2 => h l2 (List.mem_cons_of_mem _ h2)
      have ih2 := ih hrest
      rw [linesRead_bufioReader] at ih2 ⊢
      have hj : joinLines (l :: lines) ++ rest = l ++ '\n' :: (joinLines lines ++ rest) := by
        simp [joinLines]
      rw [hj, inputLines_line l hl]
      simp [InputLine.isRead, InputLine.raw, ih2]

/-! ## Facts about `jsonIterator` -/

theorem loop_eof (r : LineReader) (n : Nat) :
    jsonIterator.loop r (some ReadErr.EOF) n = ⟨[], [], r⟩ := by
  cases r <;> simp [jsonIterator.loop]

theorem loop_lines (r : LineReader) :
    ∀ n, (jsonIterator.loop r none n).placeholders.map (fun p => p.line) = linesRead r := by
  induction r with
  | nil => intro n; simp [jsonIterator.loop, linesRead]
  | cons x r ih =>
      intro n
      obtain ⟨line, err⟩ := x
      cases err with
      | none =>
          by_cases hl : line.length = 0
          · simp [jsonIterator.loop, ReadResult.failure, linesRead, hl, ih]
          · simp [jsonIterator.loop, ReadResult.failure, linesRead, hl, ih, Iterated.send]
      | some e =>
          cases e with
          | EOF =>
              by_cases hl : line.length = 0
              · simp [jsonIterator.loop, ReadResult.failure, linesRead, hl, loop_eof]
              · simp [jsonIterator.loop, ReadResult.failure, linesRead, hl, loop_eof,
                  Iterated.send]
          | other msg => simp [jsonIterator.loop, ReadResult.failure, linesRead]

theorem jsonIterator_lines (r : LineReader) :
    (jsonIterator r).placeholders.map (fun p => p.line) = linesRead r :=
  loop_lines r 0

/-! ## Facts about `json2csv` -/

theorem fillRecord_eq (fmt : Fmt) (data : GoMap) (eks : List (List String)) :
    ∀ pre post : List String, post.length = eks.length → (∀ ek ∈ eks, ek ≠ []) →
      fillRecord fmt data eks pre.length (pre ++ post) =
        some (pre ++ eks.map fun ek => (get_value fmt data ek).getD "") := by
  induction eks with
  | nil =>
      intro pre post hlen _
      have : post = [] := List.length_eq_zero.mp hlen
      simp [fillRecord, this]
  | cons ek eks ih =>
      intro pre post hlen hne
      cases post with
      | nil => simp at hlen
      | cons p post =>
          obtain ⟨v, hv⟩ := get_value_some fmt ek (hne ek (by simp)) data
          have hset : (pre ++ p :: post).set pre.length v = (pre ++ [v]) ++ post := by
            simp
          have hlen2 : pre.length + 1 = (pre ++ [v]).length := by simp
          have hin : pre.length < (pre ++ p :: post).length := by simp
          rw [fillRecord, hv]
          simp only []
          rw [if_pos hin, hset, hlen2, ih (pre ++ [v]) post (by simpa using hlen)
            (fun e he => hne e (List.mem_cons_of_mem _ he))]
          simp [hv]

theorem fillRecord_row (fmt : Fmt) (m : List (String × Value)) (keys : List String)
    (record : List String) (hlen : record.length = keys.length) :
    fillRecord fmt (some m) (keys.map strings.Split) 0 record = some (rowOf fmt keys m) := by
  have h := fillRecord_eq fmt (some m) (keys.map strings.Split) [] record (by simpa using hlen)
    (by
      intro ek hek
      obtain ⟨key, _, rfl⟩ := List.mem_map.mp hek
      exact Split_ne_nil key)
  simpa [rowOf, List.map_map, Function.comp_def] using h

theorem rowOf_length (fmt : Fmt) (keys : List String) (m : List (String × Value)) :
    (rowOf fmt keys m).length = keys.length := by
  simp [rowOf]

theorem json2csv_loop_eq (unmarshal : Unmarshal) (fmt : Fmt) (keys : List String)
    (ps : List Placeholder) :
    ∀ record : List String, record.length = keys.length →
      json2csv.loop unmarshal fmt (keys.map strings.Split) ps record =
        some (rowsOf unmarshal fmt keys (ps.map fun p => p.line), decodeLog unmarshal ps) := by
  induction ps with
  | nil => intro record _; simp [json2csv.loop, rowsOf, decodeLog]
  | cons p ps ih =>
      intro record hlen
      rw [json2csv.loop]
      cases hu : unmarshal p.line with
      | error e =>
          simp [futureUnmarshal, hu, ih record hlen, rowsOf, decodesTo, decodeLog]
      | ok data =>
          cases data with
          | none =>
              simp [futureUnmarshal, hu, ih record hlen, rowsOf, decodesTo, decodeLog]
          | some m =>
              simp only [futureUnmarshal, hu]
              rw [fillRecord_row fmt m keys record hlen]
              simp only []
              rw [ih (rowOf fmt keys m) (rowOf_length fmt keys m)]
              simp [rowsOf, decodesTo, hu, decodeLog, futureUnmarshal]

theorem json2csv_eq (unmarshal : Unmarshal) (fmt : Fmt) (r : LineReader) (keys : List String)
    (printHeader : Bool) :
    json2csv unmarshal fmt r keys printHeader =
      some ⟨(if printHeader then [keys] else []) ++ rowsOf unmarshal fmt keys (linesRead r),
        decodeLog unmarshal (jsonIterator r).placeholders ++ (jsonIterator r).log⟩ := by
  simp only [json2csv]
  rw [json2csv_loop_eq unmarshal fmt keys _ _ (by simp), jsonIterator_lines]
  rfl

theorem rowsOf_append (unmarshal : Unmarshal) (fmt : Fmt) (keys : List String)
    (xs ys : List (List Char)) :
    rowsOf unmarshal fmt keys (xs ++ ys) =
      rowsOf unmarshal fmt keys xs ++ rowsOf unmarshal fmt keys ys := by
  simp [rowsOf]

theorem rowsOf_eq_map (unmarshal : Unmarshal) (fmt : Fmt) (keys : List String)
    (lines : List (List Char)) :
    rowsOf unmarshal fmt keys lines =
      (lines.filterMap (decodesTo unmarshal)).map (rowOf fmt keys) := by
  simp [rowsOf, List.map_filterMap]

theorem records_of_read_lines (unmarshal : Unmarshal) (input : List Char)
    (hblank : decodesTo unmarshal ['\n'] = none) :
    (linesRead (bufioReader input)).filterMap (decodesTo unmarshal) =
      ((inputLines input).filter fun l => decide (l.content ≠ [])).filterMap
        fun l => decodesTo unmarshal l.raw := by
  rw [linesRead_bufioReader, List.filterMap_map, List.filterMap_filter, List.filterMap_filter]
  apply List.filterMap_congr
  intro l _
  obtain ⟨content, terminated⟩ := l
  by_cases hc : content = []
  · cases terminated <;> simp [InputLine.isRead, InputLine.raw, hc, hblank]
  · simp [InputLine.isRead, hc]

theorem rowOf_getElem? (fmt : Fmt) (keys : List String) (m : List (String × Value)) (i : Nat)
    (h : i < keys.length) :
    get_value fmt (some m) (strings.Split keys[i]) = (rowOf fmt keys m)[i]? := by
  obtain ⟨v, hv⟩ := get_value_some fmt (strings.Split keys[i]) (Split_ne_nil _) (some m)
  simp [rowOf, List.getElem?_map, List.getElem?_eq_getElem h, hv]

theorem linesRead_bufioReader_nil : linesRead (bufioReader []) = [] := by
  simp [bufioReader, linesRead]

theorem linesRead_of_lines (lines : List (List Char)) (h : ∀ l ∈ lines, '\n' ∉ l) :
    linesRead (bufioReader (joinLines lines)) = lines.map fun l => l ++ ['\n'] := by
  have h2 := linesRead_joinLines lines h []
  simpa [linesRead_bufioReader_nil] using h2

/-- Within the range of `int`, a number without fractional part is rendered as the
decimal string of the integer it denotes. -/
theorem get_value_integer (fmt : Fmt) (data : GoMap) (pre : List String) (k : String)
    (f : Float64) (v : Int) (hv : f.denotesInt v) (hrange : minInt64 ≤ v ∧ v < 2 ^ 63)
    (hk : (descend data pre).index k = some (Value.number f)) :
    get_value fmt data (pre ++ [k]) = some (Sprintf_d v) := by
  rw [get_value_descend fmt pre [k] (by simp)]
  cases f with
  | inf neg => exact absurd hv (by simp [Float64.denotesInt])
  | nan => exact absurd hv (by simp [Float64.denotesInt])
  | fin m e =>
      simp only [Float64.denotesInt] at hv
      by_cases he : 0 ≤ e
      · rw [if_pos he] at hv
        subst hv
        simp only [get_value, hk, Float64.mod1, Float64.eqZero, Float64.toInt, he, if_true,
          decide_True, hrange, and_self]
      · rw [if_neg he] at hv
        have hpos : ((2 ^ (-e).toNat : Nat) : Int) ≠ 0 := by positivity
        have hmod : Int.tmod m ((2 ^ (-e).toNat : Nat) : Int) = 0 := by
          rw [hv]
          exact Int.mul_tmod_left _ _
        have hdiv : Int.tdiv m ((2 ^ (-e).toNat : Nat) : Int) = v := by
          rw [hv]
          exact Int.mul_tdiv_cancel _ hpos
        simp only [get_value, hk, Float64.mod1, Float64.eqZero, Float64.toInt, he, if_false,
          hmod, hdiv, decide_True, if_true, hrange, and_self]

/-! ## Reads of no bytes and failed reads -/

theorem linesRead_ne_nil (r : LineReader) : ∀ l ∈ linesRead r, l ≠ [] := by
  induction r with
  | nil => simp [linesRead]
  | cons x r ih =>
      obtain ⟨line, err⟩ := x
      intro l hl
      cases err with
      | none =>
          by_cases h0 : line.length = 0
          · simp only [linesRead, h0, if_true] at hl
            exact ih l hl
          · simp only [linesRead, h0, if_false, List.mem_cons] at hl
            rcases hl with rfl | hl
            · intro h; exact h0 (by simp [h])
            · exact ih l hl
      | some e =>
          cases e with
          | EOF =>
              by_cases h0 : line.length = 0
              · simp [linesRead, h0] at hl
              · simp only [linesRead, h0, if_false, List.mem_singleton] at hl
                subst hl
                intro h; exact h0 (by simp [h])
          | other msg => simp [linesRead] at hl

theorem placeholder_line_ne_nil (r : LineReader) :
    ∀ p ∈ (jsonIterator r).placeholders, p.line ≠ [] := by
  intro p hp
  apply linesRead_ne_nil r
  rw [← jsonIterator_lines]
  exact List.mem_map_of_mem _ hp

theorem decodeLog_line (unmarshal : Unmarshal) (ps : List Placeholder) (n : Nat) (err : String)
    (line : List Char) (h : LogEntry.decodeError n err line ∈ decodeLog unmarshal ps) :
    ∃ p ∈ ps, p.line = line := by
  simp only [decodeLog, List.mem_flatMap] at h
  obtain ⟨p, hp, hmem⟩ := h
  refine ⟨p, hp, ?_⟩
  cases hu : unmarshal p.line with
  | error e =>
      simp [futureUnmarshal, hu] at hmem
      exact hmem.2.2.symm
  | ok data => simp [futureUnmarshal, hu] at hmem

theorem loop_log_mem (r : LineReader) :
    ∀ (e : Option ReadErr) (n : Nat), ∀ entry ∈ (jsonIterator.loop r e n).log,
      ∃ msg, entry = LogEntry.inputError msg := by
  induction r with
  | nil => intro e n entry h; simp [jsonIterator.loop] at h
  | cons x r ih =>
      intro e n entry h
      obtain ⟨line, err⟩ := x
      by_cases he : e = some ReadErr.EOF
      · simp [jsonIterator.loop, he] at h
      · cases err with
        | none =>
            by_cases h0 : line.length = 0
            · simp only [jsonIterator.loop, ReadResult.failure, he, h0, if_true, if_false] at h
              exact ih _ _ _ h
            · simp only [jsonIterator.loop, ReadResult.failure, he, h0, if_false,
                Iterated.send] at h
              exact ih _ _ _ h
        | some e3 =>
            cases e3 with
            | EOF =>
                by_cases h0 : line.length = 0
                · simp [jsonIterator.loop, ReadResult.failure, he, h0, loop_eof] at h
                · simp [jsonIterator.loop, ReadResult.failure, he, h0, loop_eof,
                    Iterated.send] at h
            | other msg =>
                simp [jsonIterator.loop, ReadResult.failure, he] at h
                exact ⟨msg, h⟩

theorem linesRead_skip (pre post : LineReader) :
    linesRead (pre ++ ⟨[], none⟩ :: post) = linesRead (pre ++ post) := by
  induction pre with
  | nil => simp [linesRead]
  | cons x pre ih =>
      obtain ⟨line, err⟩ := x
      cases err with
      | none => simp [linesRead, ih]
      | some e => cases e <;> simp [linesRead]

theorem loop_failed_read (pre post : LineReader) (b : List Char) (msg : String) :
    ∀ n : Nat,
      (jsonIterator.loop (pre ++ ⟨b, some (ReadErr.other msg)⟩ :: post) none n).placeholders =
        (jsonIterator.loop (pre ++ ⟨[], some ReadErr.EOF⟩ :: post) none n).placeholders := by
  induction pre with
  | nil => intro n; simp [jsonIterator.loop, ReadResult.failure, loop_eof]
  | cons x pre ih =>
      intro n
      obtain ⟨line, err⟩ := x
      cases err with
      | none =>
          by_cases h0 : line.length = 0
          · simp [jsonIterator.loop, ReadResult.failure, h0, ih]
          · simp [jsonIterator.loop, ReadResult.failure, h0, ih, Iterated.send]
      | some e =>
          cases e with
          | EOF =>
              by_cases h0 : line.length = 0
              · simp [jsonIterator.loop, ReadResult.failure, h0, loop_eof]
              · simp [jsonIterator.loop, ReadResult.failure, h0, loop_eof, Iterated.send]
          | other m2 => simp [jsonIterator.loop, ReadResult.failure]

theorem loop_failed_read_unread (pre post : LineReader) (b : List Char) (msg : String)
    (hpre : ∀ x ∈ pre, x.err = none) :
    ∀ n : Nat,
      (jsonIterator.loop (pre ++ ⟨b, some (ReadErr.other msg)⟩ :: post) none n).unread = post ∧
      (jsonIterator.loop (pre ++ ⟨[], some ReadErr.EOF⟩ :: post) none n).unread = post ∧
      LogEntry.inputError msg ∈
        (jsonIterator.loop (pre ++ ⟨b, some (ReadErr.other msg)⟩ :: post) none n).log := by
  induction pre with
  | nil => intro n; simp [jsonIterator.loop, ReadResult.failure, loop_eof]
  | cons x pre ih =>
      intro n
      obtain ⟨line, err⟩ := x
      have hx : err = none := hpre ⟨line, err⟩ (by simp)
      subst hx
      have ih2 := ih (fun y hy => hpre y (List.mem_cons_of_mem _ hy)) (n + 1)
      by_cases h0 : line.length = 0
      · simpa [jsonIterator.loop, ReadResult.failure, h0] using ih2
      · simpa [jsonIterator.loop, ReadResult.failure, h0, Iterated.send] using ih2

theorem loop_log_nil (r : LineReader) (h : ∀ x ∈ r, x.failure = none) :
    ∀ (e : Option ReadErr) (n : Nat), (jsonIterator.loop r e n).log = [] := by
  induction r with
  | nil => intro e n; simp [jsonIterator.loop]
  | cons x r ih =>
      intro e n
      have hx : x.failure = none := h x (by simp)
      have ih2 := ih (fun y hy => h y (List.mem_cons_of_mem _ hy))
      by_cases he : e = some ReadErr.EOF
      · simp [jsonIterator.loop, he]
      · by_cases h0 : x.line.length = 0
        · simp [jsonIterator.loop, he, hx, h0, ih2]
        · simp [jsonIterator.loop, he, hx, h0, ih2, Iterated.send]

theorem bufioReader_log (input : List Char) : (jsonIterator (bufioReader input)).log = [] := by
  apply loop_log_nil
  intro x hx
  rw [bufioReader_eq_map] at hx
  obtain ⟨l, _, rfl⟩ := List.mem_map.mp hx
  cases ht : l.terminated <;> simp [InputLine.toRead, ReadResult.failure, ht]

theorem rowsOf_cons (unmarshal : Unmarshal) (fmt : Fmt) (keys : List String)
    (l : List Char) (ls : List (List Char)) :
    rowsOf unmarshal fmt keys (l :: ls) =
      ((decodesTo unmarshal l).map (rowOf fmt keys)).toList ++ rowsOf unmarshal fmt keys ls := by
  simp only [rowsOf, List.filterMap_cons]
  cases decodesTo unmarshal l <;> simp

theorem decodeLog_cons (unmarshal : Unmarshal) (p : Placeholder) (ps : List Placeholder) :
    decodeLog unmarshal (p :: ps) =
      (futureUnmarshal unmarshal p.line p.line_count).2 ++ decodeLog unmarshal ps := by
  simp [decodeLog]

theorem rows_plus_failures (unmarshal : Unmarshal) (fmt : Fmt) (keys : List String)
    (ps : List Placeholder) (h : ∀ p ∈ ps, unmarshal p.line ≠ Except.ok none) :
    (rowsOf unmarshal fmt keys (ps.map fun p => p.line)).length +
      ((decodeLog unmarshal ps).filter LogEntry.isDecodeError).length = ps.length := by
  induction ps with
  | nil => simp [rowsOf, decodeLog]
  | cons p ps ih =>
      have ih2 := ih (fun q hq => h q (List.mem_cons_of_mem _ hq))
      rw [List.map_cons, rowsOf_cons, decodeLog_cons, List.filter_append, List.length_append,
        List.length_append, List.length_cons]
      cases hu : unmarshal p.line with
      | error e =>
          have hd : decodesTo unmarshal p.line = none := by simp [decodesTo, hu]
          have hf : (futureUnmarshal unmarshal p.line p.line_count).2 =
              [LogEntry.decodeError p.line_count e p.line] := by simp [futureUnmarshal, hu]
          rw [hd, hf]
          simp [LogEntry.isDecodeError]
          omega
      | ok data =>
          cases data with
          | none => exact absurd hu (h p (by simp))
          | some m =>
              have hd : decodesTo unmarshal p.line = some m := by simp [decodesTo, hu]
              have hf : (futureUnmarshal unmarshal p.line p.line_count).2 = [] := by
                simp [futureUnmarshal, hu]
              rw [hd, hf]
              simp
              omega

theorem decodeLog_mem (unmarshal : Unmarshal) (ps : List Placeholder) (p : Placeholder)
    (hp : p ∈ ps) (err : String) (h : unmarshal p.line = Except.error err) :
    LogEntry.decodeError p.line_count err p.line ∈ decodeLog unmarshal ps := by
  simp only [decodeLog, List.mem_flatMap]
  exact ⟨p, hp, by simp [futureUnmarshal, h]⟩

/-! ## The invariant is kept -/

theorem loop_step (r : LineReader) (err : Option ReadErr) (n : Nat)
    (h : err ≠ some ReadErr.EOF) :
    (jsonIterator.loop r err n).placeholders =
      match r.ReadBytes.1.failure with
      | some _ => []
      | none =>
          if r.ReadBytes.1.line.length = 0 then
            (jsonIterator.loop r.ReadBytes.2 r.ReadBytes.1.err (n + 1)).placeholders
          else
            ⟨r.ReadBytes.1.line, n + 1⟩ ::
              (jsonIterator.loop r.ReadBytes.2 r.ReadBytes.1.err (n + 1)).placeholders := by
  cases r with
  | nil => simp [jsonIterator.loop, LineReader.ReadBytes, ReadResult.failure]
  | cons x r =>
      simp only [jsonIterator.loop, LineReader.ReadBytes, h, if_false]
      cases x.failure with
      | some msg => rfl
      | none =>
          by_cases h0 : x.line.length = 0
          · simp [h0]
          · simp [h0, Iterated.send]

theorem Inv.init (cfg : Config) (r : LineReader) (printHeader : Bool) :
    Inv cfg r printHeader (State.init cfg r printHeader) 0 where
  n_le := Nat.zero_le _
  ids := by simp [State.init, Consumer.holding, Producer.holding]
  started := by simp [State.init, Producer.future, jsonIterator]
  written := by simp [State.init, rowsOf]
  record := by simp [State.init]
  tasks := by intro i t _ h; simp [State.init] at h
  done := by intro h; simp [State.init] at h

theorem getElem?_concat_some {α : Type} (l : List α) (a t : α) (i : Nat)
    (h : (l ++ [a])[i]? = some t) : l[i]? = some t ∨ t = a := by
  by_cases hlt : i < l.length
  · rw [List.getElem?_append_left hlt] at h
    exact Or.inl h
  · rw [List.getElem?_append_right (by omega)] at h
    cases hk : i - l.length with
    | zero =>
        rw [hk] at h
        simp at h
        exact Or.inr h.symm
    | succ k =>
        rw [hk] at h
        simp at h

theorem Inv.produce {cfg : Config} {r : LineReader} {printHeader : Bool} {s s2 : State}
    {n : Nat} (h : Inv cfg r printHeader s n) (hs : s.produce = some s2) :
    Inv cfg r printHeader s2 n := by
  have hids := h.ids
  have hst := h.started
  have hdone := h.done
  cases hp : s.producer with
  | closed => simp [State.produce, hp] at hs
  | sending c rd err lc =>
      rw [hp] at hids hst hdone
      simp only [State.produce, hp] at hs
      by_cases hcap : s.ch.length < chCapacity
      · rw [if_pos hcap] at hs
        obtain rfl := Option.some.inj hs
        exact {
          n_le := h.n_le
          ids := by simpa [Producer.holding, List.append_assoc] using hids
          started := by simpa [Producer.future] using hst
          written := h.written
          record := h.record
          tasks := h.tasks
          done := by
            intro hc
            have := (hdone hc).1
            cases this }
      · rw [if_neg hcap] at hs
        cases hs
  | reading rd err lc =>
      rw [hp] at hids hst hdone
      have hnd : s.consumer ≠ Consumer.done := by
        intro hc
        have := (hdone hc).1
        cases this
      simp only [State.produce, hp] at hs
      by_cases he : err = some ReadErr.EOF
      · rw [if_pos he] at hs
        obtain rfl := Option.some.inj hs
        exact {
          n_le := h.n_le
          ids := by simpa [Producer.holding] using hids
          started := by
            rw [hst]
            simp [Producer.future, he, loop_eof]
          written := h.written
          record := h.record
          tasks := h.tasks
          done := fun hc => absurd hc hnd }
      · rw [if_neg he] at hs
        have hstep := loop_step rd err lc he
        simp only [Producer.future] at hst
        cases hf : rd.ReadBytes.1.failure with
        | some msg =>
            rw [hf] at hs hstep
            simp only [] at hs hstep
            obtain rfl := Option.some.inj hs
            exact {
              n_le := h.n_le
              ids := by simpa [Producer.holding] using hids
              started := by
                rw [hst, hstep]
                simp [Producer.future]
              written := h.written
              record := h.record
              tasks := h.tasks
              done := fun hc => absurd hc hnd }
        | none =>
            rw [hf] at hs hstep
            simp only [] at hs hstep
            by_cases h0 : rd.ReadBytes.1.line.length = 0
            · rw [if_pos h0] at hs hstep
              obtain rfl := Option.some.inj hs
              exact {
                n_le := h.n_le
                ids := by simpa [Producer.holding] using hids
                started := by
                  rw [hst, hstep]
                  simp [Producer.future]
                written := h.written
                record := h.record
                tasks := h.tasks
                done := fun hc => absurd hc hnd }
            · rw [if_neg h0] at hs hstep
              obtain rfl := Option.some.inj hs
              have hn := h.n_le
              exact {
                n_le := by simp; omega
                ids := by
                  simp only [Producer.holding, List.length_append, List.length_singleton]
                  simp only [Producer.holding, List.append_nil] at hids
                  have hk : s.tasks.length + 1 - n = (s.tasks.length - n) + 1 := by omega
                  rw [hk, List.range'_concat, ← hids]
                  simp
                  omega
                started := by
                  rw [hst, hstep]
                  simp [Producer.future, Task.placeholder]
                written := by
                  rw [h.written, List.take_append_of_le_length hn]
                record := h.record
                tasks := by
                  intro i t hi ht
                  rcases getElem?_concat_some _ _ _ _ ht with ht | ht
                  · exact h.tasks i t hi ht
                  · rw [ht]
                    trivial
                done := fun hc => absurd hc hnd }

theorem map_set_same {α β : Type} (f : α → β) (l : List α) (t2 : α) :
    ∀ (c : Nat) (t : α), l[c]? = some t → f t2 = f t → (l.set c t2).map f = l.map f := by
  induction l with
  | nil => intro c t h; simp at h
  | cons a l ih =>
      intro c t h hf
      cases c with
      | zero =>
          simp at h
          simp [hf, h]
      | succ c =>
          simp at h
          simp [ih c t h hf]

theorem map_line_eq {xs ys : List Task}
    (h : xs.map Task.placeholder = ys.map Task.placeholder) :
    xs.map (fun t => t.line) = ys.map (fun t => t.line) := by
  have := congrArg (List.map fun p : Placeholder => p.line) h
  simpa [List.map_map, Function.comp_def, Task.placeholder] using this

theorem Inv.decode {cfg : Config} {r : LineReader} {printHeader : Bool} {s s2 : State}
    {n : Nat} (c : Nat) (h : Inv cfg r printHeader s n) (hs : s.decode cfg c = some s2) :
    Inv cfg r printHeader s2 n := by
  simp only [State.decode] at hs
  cases htc : s.tasks[c]? with
  | none => simp [htc] at hs
  | some t =>
      rw [htc] at hs
      simp only [] at hs
      have key : ∀ (st : TaskState) (lg : List LogEntry), st.agrees cfg.unmarshal t.line →
          Inv cfg r printHeader
            { s with tasks := s.tasks.set c { t with state := st }, log := lg } n := by
        intro st lg hag
        have hpl : (s.tasks.set c { t with state := st }).map Task.placeholder =
            s.tasks.map Task.placeholder := map_set_same _ _ _ c t htc rfl
        exact {
          n_le := by simpa using h.n_le
          ids := by simpa using h.ids
          started := by
            rw [h.started]
            simp only [hpl]
          written := by
            rw [h.written]
            simp only [List.map_take, map_line_eq hpl]
          record := h.record
          tasks := by
            intro i t3 hi ht3
            simp only [List.getElem?_set] at ht3
            by_cases hci : c = i
            · rw [if_pos hci] at ht3
              split at ht3
              · obtain rfl := Option.some.inj ht3
                exact hag
              · cases ht3
            · rw [if_neg hci] at ht3
              exact h.tasks i t3 hi ht3
          done := h.done }
      cases hts : t.state with
      | sending d => simp [hts] at hs
      | closed => simp [hts] at hs
      | running =>
          rw [hts] at hs
          simp only [] at hs
          cases hu : cfg.unmarshal t.line with
          | error err =>
              rw [hu] at hs
              obtain rfl := Option.some.inj hs
              exact key _ _ ⟨err, hu⟩
          | ok data =>
              rw [hu] at hs
              obtain rfl := Option.some.inj hs
              exact key _ _ hu

theorem rowsOf_singleton (unmarshal : Unmarshal) (fmt : Fmt) (keys : List String)
    (l : List Char) :
    rowsOf unmarshal fmt keys [l] = ((decodesTo unmarshal l).map (rowOf fmt keys)).toList := by
  rw [rowsOf_cons]
  simp [rowsOf]

theorem Inv.deliver {cfg : Config} {r : LineReader} {printHeader : Bool} {s s2 : State}
    {n c : Nat} {t : Task} (h : Inv cfg r printHeader s n)
    (hc : s.consumer = Consumer.waiting c) (ht : s.tasks[c]? = some t)
    (tasks2 : List Task) (hlen : tasks2.length = s.tasks.length)
    (hpl : tasks2.map Task.placeholder = s.tasks.map Task.placeholder)
    (hother : ∀ i, i ≠ c → tasks2[i]? = s.tasks[i]?)
    (data : GoMap) (hdata : decodesTo cfg.unmarshal t.line = data)
    (hs : State.deliver cfg { s with tasks := tasks2 } data = some s2) :
    Inv cfg r printHeader s2 (n + 1) := by
  have hids := h.ids
  rw [hc] at hids
  simp only [Consumer.holding, List.singleton_append, List.cons_append] at hids
  obtain ⟨hnc, hpos, hrest⟩ := List.range'_eq_cons_iff.mp hids.symm
  subst hnc
  have hn1 : n + 1 ≤ s.tasks.length := by omega
  have htake : (tasks2.take (n + 1)).map (fun t => t.line) =
      (s.tasks.take n).map (fun t => t.line) ++ [t.line] := by
    rw [@map_line_eq (tasks2.take (n + 1)) (s.tasks.take (n + 1))
      (by rw [List.map_take, List.map_take, hpl])]
    rw [List.take_succ, ht]
    simp
  have hwritten : ∀ extra : List (List String),
      extra = ((decodesTo cfg.unmarshal t.line).map (rowOf cfg.fmt cfg.keys)).toList →
      s.written ++ extra = (if printHeader then [cfg.keys] else []) ++
        rowsOf cfg.unmarshal cfg.fmt cfg.keys ((tasks2.take (n + 1)).map fun t => t.line) := by
    intro extra hx
    rw [htake, rowsOf_append, rowsOf_singleton, h.written, hx, List.append_assoc]
  have htasks : ∀ i t3, n + 1 ≤ i → tasks2[i]? = some t3 →
      t3.state.agrees cfg.unmarshal t3.line := by
    intro i t3 hi ht3
    rw [hother i (by omega)] at ht3
    exact h.tasks i t3 (by omega) ht3
  have hids2 : s.ch ++ s.producer.holding = List.range' (n + 1) (tasks2.length - (n + 1)) := by
    have hk : s.tasks.length - (n + 1) = s.tasks.length - n - 1 := by omega
    rw [hlen, hk, ← hrest, List.nil_append]
  simp only [State.deliver] at hs
  cases data with
  | none =>
      simp only [] at hs
      obtain rfl := Option.some.inj hs
      exact {
        n_le := by simpa [hlen] using hn1
        ids := by simpa [Consumer.holding] using hids2
        started := by
          rw [h.started]
          simp only [hpl]
        written := by
          have := hwritten [] (by rw [hdata]; rfl)
          simpa using this
        record := h.record
        tasks := htasks
        done := by intro hd; cases hd }
  | some m =>
      simp only [] at hs
      rw [fillRecord_row cfg.fmt m cfg.keys s.record h.record] at hs
      simp only [] at hs
      obtain rfl := Option.some.inj hs
      exact {
        n_le := by simpa [hlen] using hn1
        ids := by simpa [Consumer.holding] using hids2
        started := by
          rw [h.started]
          simp only [hpl]
        written := hwritten _ (by rw [hdata]; rfl)
        record := rowOf_length _ _ _
        tasks := htasks
        done := by intro hd; cases hd }

theorem Inv.consume {cfg : Config} {r : LineReader} {printHeader : Bool} {s s2 : State}
    {n : Nat} (h : Inv cfg r printHeader s n) (hs : s.consume cfg = some s2) :
    ∃ n2, Inv cfg r printHeader s2 n2 := by
  simp only [State.consume] at hs
  split at hs
  · rename_i hc
    have hids := h.ids
    rw [hc] at hids
    split at hs
    · rename_i c rest hch
      obtain rfl := Option.some.inj hs
      rw [hch] at hids
      exact ⟨n, {
        n_le := h.n_le
        ids := by simpa [Consumer.holding] using hids
        started := h.started
        written := h.written
        record := h.record
        tasks := h.tasks
        done := by intro hd; cases hd }⟩
    · rename_i hch
      split at hs
      · rename_i hp
        obtain rfl := Option.some.inj hs
        exact ⟨n, {
          n_le := h.n_le
          ids := by simpa [Consumer.holding] using hids
          started := h.started
          written := h.written
          record := h.record
          tasks := h.tasks
          done := fun _ => ⟨hp, hch⟩ }⟩
      · cases hs
      · cases hs
  · rename_i c hc
    have hids := h.ids
    rw [hc] at hids
    simp only [Consumer.holding, List.singleton_append, List.cons_append] at hids
    obtain ⟨hnc, _, _⟩ := List.range'_eq_cons_iff.mp hids.symm
    split at hs
    · cases hs
    · rename_i t htc
      have hag := h.tasks c t (by omega) htc
      split at hs
      · cases hs
      · rename_i data hts
        rw [hts] at hag
        refine ⟨n + 1, Inv.deliver h hc htc
          (s.tasks.set c { t with state := TaskState.closed }) (by simp)
          (map_set_same _ _ _ c t htc rfl) ?_ data ?_ hs⟩
        · intro i hi
          simp [List.getElem?_set, Ne.symm hi]
        · simp only [TaskState.agrees] at hag
          cases data <;> simp [decodesTo, hag]
      · rename_i hts
        rw [hts] at hag
        obtain ⟨err, herr⟩ := hag
        refine ⟨n + 1, Inv.deliver h hc htc s.tasks rfl rfl (fun _ _ => rfl) none ?_ hs⟩
        simp [decodesTo, herr]
  · cases hs

theorem Inv.step {cfg : Config} {r : LineReader} {printHeader : Bool} {s s2 : State}
    {n : Nat} (a : Action) (h : Inv cfg r printHeader s n) (hs : s.step cfg a = some s2) :
    ∃ n2, Inv cfg r printHeader s2 n2 := by
  cases a with
  | produce => exact ⟨n, h.produce hs⟩
  | decode c => exact ⟨n, h.decode c hs⟩
  | consume => exact h.consume hs

theorem Inv.run {cfg : Config} {r : LineReader} {printHeader : Bool} (schedule : List Action) :
    ∀ {s s2 : State} {n : Nat}, Inv cfg r printHeader s n →
      State.run cfg s schedule = some s2 → ∃ n2, Inv cfg r printHeader s2 n2 := by
  induction schedule with
  | nil =>
      intro s s2 n h hs
      simp only [State.run] at hs
      obtain rfl := Option.some.inj hs
      exact ⟨n, h⟩
  | cons a schedule ih =>
      intro s s2 n h hs
      simp only [State.run] at hs
      cases hst : s.step cfg a with
      | none => simp [hst] at hs
      | some s1 =>
          rw [hst] at hs
          obtain ⟨n1, h1⟩ := h.step a hst
          exact ih h1 hs

theorem Inv.written_prefix {cfg : Config} {r : LineReader} {printHeader : Bool} {s : State}
    {n : Nat} (h : Inv cfg r printHeader s n) :
    (if printHeader then [cfg.keys] else []) ++
        rowsOf cfg.unmarshal cfg.fmt cfg.keys (linesRead r) =
      s.written ++ rowsOf cfg.unmarshal cfg.fmt cfg.keys
        ((s.tasks.drop n).map (fun t => t.line) ++ s.producer.future.map fun p => p.line) := by
  have hl : linesRead r = (s.tasks.take n).map (fun t => t.line) ++
      ((s.tasks.drop n).map (fun t => t.line) ++ s.producer.future.map fun p => p.line) := by
    rw [← jsonIterator_lines, h.started, List.map_append, List.map_map, ← List.append_assoc,
      ← List.map_append, List.take_append_drop]
    rfl
  rw [hl, rowsOf_append, h.written, List.append_assoc]

theorem Inv.written_done {cfg : Config} {r : LineReader} {printHeader : Bool} {s : State}
    {n : Nat} (h : Inv cfg r printHeader s n) (hd : s.consumer = Consumer.done) :
    s.written = (if printHeader then [cfg.keys] else []) ++
      rowsOf cfg.unmarshal cfg.fmt cfg.keys (linesRead r) := by
  obtain ⟨hp, hch⟩ := h.done hd
  have hids := h.ids
  rw [hd, hp, hch] at hids
  simp only [Consumer.holding, Producer.holding, List.append_nil] at hids
  have hlen : s.tasks.length - n = 0 := List.range'_eq_nil.mp hids.symm
  have hn := h.n_le
  have hdrop : s.tasks.drop n = [] := List.drop_eq_nil_of_le (by omega)
  have := h.written_prefix
  rw [hdrop, hp] at this
  simp only [Producer.future, List.map_nil, List.append_nil, rowsOf, List.filterMap_nil]
    at this
  simpa [rowsOf] using this.symm

theorem Inv.enabled_isSome {cfg : Config} {r : LineReader} {printHeader : Bool} {s : State}
    {n : Nat} (h : Inv cfg r printHeader s n) (hnd : s.consumer ≠ Consumer.done) :
    ∃ a, (s.step cfg a).isSome = true := by
  cases hc : s.consumer with
  | done => exact absurd hc hnd
  | receiving =>
      cases hch : s.ch with
      | cons c rest =>
          exact ⟨Action.consume, by simp [State.step, State.consume, hc, hch]⟩
      | nil =>
          cases hp : s.producer with
          | closed => exact ⟨Action.consume, by simp [State.step, State.consume, hc, hch, hp]⟩
          | sending c rd err lc =>
              refine ⟨Action.produce, ?_⟩
              simp only [State.step, State.produce, hp, hch, List.length_nil]
              rw [if_pos (by decide)]
              rfl
          | reading rd err lc =>
              by_cases he : err = some ReadErr.EOF
              · exact ⟨Action.produce, by simp [State.step, State.produce, hp, he]⟩
              · cases hf : rd.ReadBytes.1.failure with
                | some msg =>
                    exact ⟨Action.produce, by simp [State.step, State.produce, hp, he, hf]⟩
                | none =>
                    by_cases h0 : rd.ReadBytes.1.line.length = 0
                    · exact ⟨Action.produce, by
                        simp only [State.step, State.produce, hp, he, hf, if_false]
                        rw [if_pos h0]
                        rfl⟩
                    · exact ⟨Action.produce, by
                        simp only [State.step, State.produce, hp, he, hf, if_false]
                        rw [if_neg h0]
                        rfl⟩
  | waiting c =>
      have hids := h.ids
      rw [hc] at hids
      simp only [Consumer.holding, List.singleton_append, List.cons_append] at hids
      obtain ⟨hnc, hpos, _⟩ := List.range'_eq_cons_iff.mp hids.symm
      have hlt : c < s.tasks.length := by omega
      have htc : s.tasks[c]? = some s.tasks[c] := List.getElem?_eq_getElem hlt
      cases hts : s.tasks[c].state with
      | running =>
          refine ⟨Action.decode c, ?_⟩
          simp only [State.step, State.decode, htc, hts]
          cases cfg.unmarshal s.tasks[c].line with
          | error err => rfl
          | ok data => rfl
      | closed =>
          exact ⟨Action.consume, by
            simp [State.step, State.consume, hc, htc, hts, State.deliver]⟩
      | sending data =>
          refine ⟨Action.consume, ?_⟩
          simp only [State.step, State.consume, hc, htc, hts, State.deliver]
          cases data with
          | none => rfl
          | some m =>
              simp only []
              rw [fillRecord_row cfg.fmt m cfg.keys s.record h.record]
              rfl

theorem Inv.enabled {cfg : Config} {r : LineReader} {printHeader : Bool} {s : State}
    {n : Nat} (h : Inv cfg r printHeader s n) (hnd : s.consumer ≠ Consumer.done) :
    ∃ a s2, s.step cfg a = some s2 := by
  obtain ⟨a, ha⟩ := h.enabled_isSome hnd
  exact ⟨a, Option.isSome_iff_exists.mp ha⟩

/-! ## Every execution ends -/

theorem sum_steps_set (c : Nat) (t : Task) (st : TaskState) :
    ∀ l : List Task, l[c]? = some t →
      ((l.set c { t with state := st }).map fun t => t.state.steps).sum + t.state.steps =
        (l.map fun t => t.state.steps).sum + st.steps := by
  induction c with
  | zero =>
      intro l h
      cases l with
      | nil => simp at h
      | cons a l =>
          simp only [List.getElem?_cons_zero, Option.some.injEq] at h
          subst h
          simp only [List.set_cons_zero, List.map_cons, List.sum_cons]
          omega
  | succ c ih =>
      intro l h
      cases l with
      | nil => simp at h
      | cons a l =>
          simp only [List.getElem?_cons_succ] at h
          have := ih l h
          simp only [List.set_cons_succ, List.map_cons, List.sum_cons]
          omega

theorem State.deliver_steps {cfg : Config} {s s2 : State} {data : GoMap}
    (h : State.deliver cfg s data = some s2) :
    s2.producer = s.producer ∧ s2.ch = s.ch ∧ s2.tasks = s.tasks ∧
      s2.consumer = Consumer.receiving := by
  simp only [State.deliver] at h
  split at h
  · obtain rfl := Option.some.inj h
    exact ⟨rfl, rfl, rfl, rfl⟩
  · split at h
    · cases h
    · obtain rfl := Option.some.inj h
      exact ⟨rfl, rfl, rfl, rfl⟩

theorem steps_running : TaskState.running.steps = 1 := rfl

theorem steps_closed : TaskState.closed.steps = 0 := rfl

theorem steps_sending (data : GoMap) : (TaskState.sending data).steps = 0 := rfl

theorem State.produce_steps {s s2 : State} (h : s.produce = some s2) : s2.steps < s.steps := by
  simp only [State.produce] at h
  split at h
  · rename_i rd err lc hp
    split at h
    · rename_i he
      obtain rfl := Option.some.inj h
      simp only [State.steps, hp, Producer.steps, he, if_true]
      omega
    · rename_i he
      split at h
      · obtain rfl := Option.some.inj h
        simp only [State.steps, hp, Producer.steps, he, if_false]
        omega
      · split at h
        · obtain rfl := Option.some.inj h
          cases rd with
          | nil =>
              simp only [State.steps, hp, Producer.steps, he, LineReader.ReadBytes,
                List.length_nil, if_false, if_true]
              omega
          | cons x rd =>
              simp only [State.steps, hp, Producer.steps, he, LineReader.ReadBytes,
                List.length_cons, if_false]
              split <;> omega
        · rename_i h0
          obtain rfl := Option.some.inj h
          cases rd with
          | nil => exact absurd rfl h0
          | cons x rd =>
              simp only [State.steps, hp, Producer.steps, he, LineReader.ReadBytes,
                List.length_cons, if_false, List.map_append, List.sum_append, List.map_cons,
                List.map_nil, List.sum_cons, List.sum_nil, steps_running]
              split <;> omega
  · rename_i c rd err lc hp
    split at h
    · obtain rfl := Option.some.inj h
      simp only [State.steps, hp, Producer.steps, List.length_append, List.length_singleton]
      split <;> omega
    · cases h
  · cases h

theorem State.decode_steps {cfg : Config} {s s2 : State} {c : Nat}
    (h : s.decode cfg c = some s2) : s2.steps < s.steps := by
  simp only [State.decode] at h
  split at h
  · cases h
  · rename_i t htc
    split at h
    · rename_i hts
      have key : ∀ (st : TaskState) (lg : List LogEntry), st.steps = 0 →
          ({ s with tasks := s.tasks.set c { t with state := st }, log := lg } : State).steps
            < s.steps := by
        intro st lg hst
        have := sum_steps_set c t st s.tasks htc
        rw [hts, hst, steps_running] at this
        simp only [State.steps]
        omega
      split at h
      · obtain rfl := Option.some.inj h
        exact key _ _ rfl
      · obtain rfl := Option.some.inj h
        exact key _ _ rfl
    · cases h
    · cases h

theorem State.consume_steps {cfg : Config} {s s2 : State}
    (h : s.consume cfg = some s2) : s2.steps < s.steps := by
  simp only [State.consume] at h
  split at h
  · rename_i hc
    split at h
    · rename_i c rest hch
      obtain rfl := Option.some.inj h
      simp only [State.steps, hc, hch, Consumer.steps, List.length_cons]
      omega
    · split at h
      · obtain rfl := Option.some.inj h
        simp only [State.steps, hc, Consumer.steps]
        omega
      · cases h
      · cases h
  · rename_i c hc
    split at h
    · cases h
    · rename_i t htc
      split at h
      · cases h
      · rename_i data hts
        obtain ⟨hp, hch, htasks, hcons⟩ := State.deliver_steps h
        have := sum_steps_set c t TaskState.closed s.tasks htc
        rw [hts, steps_closed, steps_sending] at this
        simp only [State.steps, hp, hch, htasks, hcons, hc, Consumer.steps]
        omega
      · obtain ⟨hp, hch, htasks, hcons⟩ := State.deliver_steps h
        simp only [State.steps, hp, hch, htasks, hcons, hc, Consumer.steps]
        omega
  · cases h

theorem State.step_steps {cfg : Config} {s s2 : State} {a : Action}
    (h : s.step cfg a = some s2) : s2.steps < s.steps := by
  cases a with
  | produce => exact State.produce_steps h
  | decode c => exact State.decode_steps h
  | consume => exact State.consume_steps h

theorem State.run_length {cfg : Config} (schedule : List Action) :
    ∀ {s s2 : State}, State.run cfg s schedule = some s2 →
      schedule.length + s2.steps ≤ s.steps := by
  induction schedule with
  | nil =>
      intro s s2 h
      simp only [State.run] at h
      obtain rfl := Option.some.inj h
      simp
  | cons a schedule ih =>
      intro s s2 h
      simp only [State.run] at h
      cases hst : s.step cfg a with
      | none => simp [hst] at h
      | some s1 =>
          rw [hst] at h
          have h1 := State.step_steps hst
          have h2 := ih h
          simp only [List.length_cons]
          omega

theorem Inv.completes {cfg : Config} {r : LineReader} {printHeader : Bool} :
    ∀ (k : Nat) {s : State} {n : Nat}, s.steps ≤ k → Inv cfg r printHeader s n →
      ∃ rest s2, State.run cfg s rest = some s2 ∧ s2.consumer = Consumer.done := by
  intro k
  induction k with
  | zero =>
      intro s n hk h
      by_cases hd : s.consumer = Consumer.done
      · exact ⟨[], s, rfl, hd⟩
      · obtain ⟨a, s2, hs⟩ := h.enabled hd
        have := State.step_steps hs
        omega
  | succ k ih =>
      intro s n hk h
      by_cases hd : s.consumer = Consumer.done
      · exact ⟨[], s, rfl, hd⟩
      · obtain ⟨a, s1, hs⟩ := h.enabled hd
        have hlt := State.step_steps hs
        obtain ⟨n1, h1⟩ := h.step a hs
        obtain ⟨rest, s2, hrun, hdone⟩ := ih (by omega) h1
        exact ⟨a :: rest, s2, by simp [State.run, hs, hrun], hdone⟩

/-! ## The claims -/

/-- C1: for every finite input and key list, the data rows `json2csv` writes are,
in input order, one row per non-empty input line (a final line without newline
included) whose decode yields a record, and nothing for any other line; each row
has one value per key and its `i`-th value is what `get_value` returns for that
record on the `i`-th key split at its dots.  The decoder is any function that,
like `json.Unmarshal`, yields no record for a line holding only the newline. -/
theorem json2csv_rows (unmarshal : Unmarshal) (fmt : Fmt) (input : List Char)
    (keys : List String) (printHeader : Bool)
    (hblank : decodesTo unmarshal ['\n'] = none) :
    ∃ out rows, json2csv unmarshal fmt (bufioReader input) keys printHeader = some out ∧
      out.written = (if printHeader then [keys] else []) ++ rows ∧
      List.Forall₂
        (fun row m => row.length = keys.length ∧
          ∀ (i : Nat) (h : i < keys.length),
            get_value fmt (some m) (strings.Split keys[i]) = row[i]?)
        rows
        (((inputLines input).filter fun l => decide (l.content ≠ [])).filterMap
          fun l => decodesTo unmarshal l.raw) := by
  refine ⟨_, _, json2csv_eq unmarshal fmt (bufioReader input) keys printHeader, rfl, ?_⟩
  rw [rowsOf_eq_map, records_of_read_lines unmarshal input hblank,
    List.forall₂_map_left_iff, List.forall₂_same]
  intro m _
  exact ⟨rowOf_length fmt keys m, fun i h => rowOf_getElem? fmt keys m i h⟩

theorem json2csv_rows_witness :
    decodesTo sampleUnmarshal ['\n'] = none ∧
    ∃ out rows, json2csv sampleUnmarshal sampleFmt
        (bufioReader (lineX1 ++ '\n' :: '\n' :: inputWithBadLine)) ["x"] true = some out ∧
      out.written = (if true then [["x"]] else []) ++ rows ∧
      List.Forall₂
        (fun row m => row.length = ["x"].length ∧
          ∀ (i : Nat) (h : i < ["x"].length),
            get_value sampleFmt (some m) (strings.Split ["x"][i]) = row[i]?)
        rows
        (((inputLines (lineX1 ++ '\n' :: '\n' :: inputWithBadLine)).filter
            fun l => decide (l.content ≠ [])).filterMap
          fun l => decodesTo sampleUnmarshal l.raw) :=
  ⟨rfl, json2csv_rows sampleUnmarshal sampleFmt _ ["x"] true rfl⟩

/-- C2: whatever the schedule of the goroutines (the order in which the decode
tasks complete included), the rows written so far are an initial part of the
rows of the input taken line by line, the decode tasks started are the
placeholders of `jsonIterator` in the order it emits them, and once the loop of
`json2csv` is left the rows written are exactly those rows, in that order.  The
execution is of bounded length, and it can always be carried on until the loop
is left. -/
theorem rows_in_input_order (cfg : Config) (r : LineReader) (printHeader : Bool)
    (schedule : List Action) (s : State)
    (hrun : (State.init cfg r printHeader).run cfg schedule = some s) :
    ∃ out, json2csv cfg.unmarshal cfg.fmt r cfg.keys printHeader = some out ∧
      s.written <+: out.written ∧
      s.tasks.map Task.placeholder <+: (jsonIterator r).placeholders ∧
      (s.consumer = Consumer.done → s.written = out.written) ∧
      schedule.length ≤ (State.init cfg r printHeader).steps ∧
      ∃ rest s2, State.run cfg s rest = some s2 ∧ s2.consumer = Consumer.done ∧
        s2.written = out.written := by
  obtain ⟨n, h⟩ := Inv.run schedule (Inv.init cfg r printHeader) hrun
  refine ⟨_, json2csv_eq _ _ _ _ _, ?_, ?_, h.written_done, ?_, ?_⟩
  · exact ⟨_, h.written_prefix.symm⟩
  · exact ⟨_, h.started.symm⟩
  · have := State.run_length schedule hrun
    omega
  · obtain ⟨rest, s2, hrest, hdone⟩ := Inv.completes s.steps (Nat.le_refl _) h
    obtain ⟨n2, h2⟩ := Inv.run rest h hrest
    exact ⟨rest, s2, hrest, hdone, h2.written_done hdone⟩

theorem rows_in_input_order_witness :
    ∃ s out,
      (State.init sampleConfig (bufioReader inputWithBadLine) false).run sampleConfig
        lastLineDecodedFirst = some s ∧
      s.consumer = Consumer.done ∧
      json2csv sampleUnmarshal sampleFmt (bufioReader inputWithBadLine) ["x"] false =
        some out ∧
      s.written = out.written ∧
      s.written = [["1"], ["2"]] := by
  have hw : ((State.init sampleConfig (bufioReader inputWithBadLine) false).run sampleConfig
      lastLineDecodedFirst).map (fun s => (s.written, s.consumer)) =
        some ([["1"], ["2"]], Consumer.done) := by decide
  cases hrun : (State.init sampleConfig (bufioReader inputWithBadLine) false).run sampleConfig
      lastLineDecodedFirst with
  | none => rw [hrun] at hw; cases hw
  | some s =>
      rw [hrun] at hw
      have hpair := Option.some.inj hw
      have hwr : s.written = [["1"], ["2"]] := congrArg Prod.fst hpair
      have hdone : s.consumer = Consumer.done := congrArg Prod.snd hpair
      obtain ⟨out, hout, _, _, hfinal, _, _⟩ :=
        rows_in_input_order sampleConfig (bufioReader inputWithBadLine) false
          lastLineDecodedFirst s hrun
      exact ⟨s, out, rfl, hdone, hout, hfinal hdone, hwr⟩

/-- C3: for a non-empty path, `get_value` returns the empty string when an
intermediate segment is absent or does not hold a mapping, when the final
segment is absent, and when the final value is null; path `a.b` gives the empty
string over `{"a":{}}` and over `{"a":1}`. -/
theorem get_value_empty_string (fmt : Fmt) (data : GoMap) (pre : List String) (k : String) :
    (∀ rest : List String, rest ≠ [] →
      (∀ m, (descend data pre).index k ≠ some (Value.object m)) →
        get_value fmt data (pre ++ k :: rest) = some "") ∧
    ((descend data pre).index k = none → get_value fmt data (pre ++ [k]) = some "") ∧
    ((descend data pre).index k = some Value.null →
      get_value fmt data (pre ++ [k]) = some "") ∧
    get_value fmt (some [("a", Value.object [])]) ["a", "b"] = some "" ∧
    get_value fmt (some [("a", Value.number (Float64.fin 1 0))]) ["a", "b"] = some "" := by
  refine ⟨?_, ?_, ?_, ?_, ?_⟩
  · intro rest hrest hno
    rw [get_value_descend fmt pre (k :: rest) (by simp),
      get_value_cons_cons fmt _ k rest hrest]
    have hmap : assertMap ((descend data pre).index k) = none := by
      cases h : (descend data pre).index k with
      | none => rfl
      | some v =>
          cases v with
          | object m => exact absurd h (hno m)
          | _ => rfl
    rw [hmap]
    exact get_value_nil_map fmt rest hrest
  · intro h
    rw [get_value_descend fmt pre [k] (by simp)]
    simp [get_value, h]
  · intro h
    rw [get_value_descend fmt pre [k] (by simp)]
    simp [get_value, h]
  · rfl
  · rfl

theorem get_value_empty_string_witness :
    get_value sampleFmt (some [("a", Value.object [("c", Value.bool true)])])
        (["a"] ++ "c" :: ["d"]) = some "" ∧
    get_value sampleFmt (some [("a", Value.object [("c", Value.bool true)])])
        (["a"] ++ ["b"]) = some "" ∧
    get_value sampleFmt (some [("a", Value.object [("b", Value.null)])])
        (["a"] ++ ["b"]) = some "" :=
  ⟨(get_value_empty_string sampleFmt (some [("a", Value.object [("c", Value.bool true)])])
      ["a"] "c").1 ["d"] (by decide) (by
        intro m h
        have h2 : (descend (some [("a", Value.object [("c", Value.bool true)])]) ["a"]).index "c"
            = some (Value.bool true) := rfl
        rw [h2] at h
        cases h),
   (get_value_empty_string sampleFmt (some [("a", Value.object [("c", Value.bool true)])])
      ["a"] "b").2.1 rfl,
   (get_value_empty_string sampleFmt (some [("a", Value.object [("b", Value.null)])])
      ["a"] "b").2.2.1 rfl⟩

/-- C4: a line whose decode fails is isolated: the rows written for the lines
`L1`, then `bad`, then `L2` are the rows written for `L1` followed by the rows
written for `L2`; the input `{"x":1}\nNOTJSON\n{"x":2}` with key `x` gives the
two rows `1` and `2`, with one logged decode failure, for line 2. -/
theorem decode_failure_isolated (unmarshal : Unmarshal) (fmt : Fmt) :
    (∀ (keys : List String) (L1 L2 : List (List Char)) (bad : List Char) (err : String),
      (∀ l ∈ L1 ++ bad :: L2, '\n' ∉ l) →
      unmarshal (bad ++ ['\n']) = Except.error err →
      ∃ o o1 o2,
        json2csv unmarshal fmt (bufioReader (joinLines (L1 ++ bad :: L2))) keys false = some o ∧
        json2csv unmarshal fmt (bufioReader (joinLines L1)) keys false = some o1 ∧
        json2csv unmarshal fmt (bufioReader (joinLines L2)) keys false = some o2 ∧
        o.written = o1.written ++ o2.written) ∧
    (∀ err : String,
      unmarshal (lineX1 ++ ['\n']) = Except.ok (some (recordX 1)) →
      unmarshal ("NOTJSON".toList ++ ['\n']) = Except.error err →
      unmarshal lineX2 = Except.ok (some (recordX 2)) →
      json2csv unmarshal fmt (bufioReader inputWithBadLine) ["x"] false =
        some ⟨[["1"], ["2"]],
          [LogEntry.decodeError 2 err ("NOTJSON".toList ++ ['\n'])]⟩) := by
  constructor
  · intro keys L1 L2 bad err hlines hbad
    refine ⟨_, _, _, json2csv_eq _ _ _ _ _, json2csv_eq _ _ _ _ _, json2csv_eq _ _ _ _ _, ?_⟩
    have h1 : ∀ l ∈ L1, '\n' ∉ l := fun l hl => hlines l (by simp [hl])
    have h2 : ∀ l ∈ L2, '\n' ∉ l := fun l hl => hlines l (by simp [hl])
    have hrow : rowsOf unmarshal fmt keys [bad ++ ['\n']] = [] := by
      simp [rowsOf, decodesTo, hbad]
    simp only [linesRead_of_lines _ hlines, linesRead_of_lines _ h1, linesRead_of_lines _ h2,
      List.map_append, List.map_cons, rowsOf_append, if_false, Bool.false_eq_true,
      List.nil_append]
    have hsplit : (bad ++ ['\n']) :: List.map (fun l => l ++ ['\n']) L2 =
        [bad ++ ['\n']] ++ List.map (fun l => l ++ ['\n']) L2 := rfl
    rw [hsplit, rowsOf_append, hrow, List.nil_append]
  · intro err h1 h2 h3
    have hit : jsonIterator (bufioReader inputWithBadLine) =
        ⟨[⟨lineX1 ++ ['\n'], 1⟩, ⟨"NOTJSON".toList ++ ['\n'], 2⟩, ⟨lineX2, 3⟩], [], []⟩ := by
      decide
    have hr1 : rowOf fmt ["x"] (recordX 1) = ["1"] := rfl
    have hr2 : rowOf fmt ["x"] (recordX 2) = ["2"] := rfl
    rw [json2csv_eq, ← jsonIterator_lines, hit]
    generalize "NOTJSON".toList ++ ['\n'] = bad at h2 ⊢
    simp [rowsOf, decodesTo, decodeLog, futureUnmarshal, h1, h2, h3, hr1, hr2]

theorem decode_failure_isolated_witness :
    (∃ o o1 o2,
        json2csv sampleUnmarshal sampleFmt
          (bufioReader (joinLines ([lineX1] ++ "NOTJSON".toList :: [lineX2]))) ["x"] false
            = some o ∧
        json2csv sampleUnmarshal sampleFmt (bufioReader (joinLines [lineX1])) ["x"] false
            = some o1 ∧
        json2csv sampleUnmarshal sampleFmt (bufioReader (joinLines [lineX2])) ["x"] false
            = some o2 ∧
        o.written = o1.written ++ o2.written) ∧
    json2csv sampleUnmarshal sampleFmt (bufioReader inputWithBadLine) ["x"] false =
        some ⟨[["1"], ["2"]],
          [LogEntry.decodeError 2 "invalid JSON" ("NOTJSON".toList ++ ['\n'])]⟩ :=
  ⟨(decode_failure_isolated sampleUnmarshal sampleFmt).1 ["x"] [lineX1] [lineX2]
      "NOTJSON".toList "invalid JSON" (by decide) rfl,
   (decode_failure_isolated sampleUnmarshal sampleFmt).2 "invalid JSON" rfl rfl rfl⟩

/-- C5 as the code has it: over an input none of whose lines decodes to the JSON
literal `null`, each line read (a blank line is read, as the one byte of its
newline) either gives a row or has its decode failure logged: the rows and the
logged decode failures together number the lines read, and every line read that
yields no record has a decode diagnostic with its bytes in the log. -/
theorem rows_and_logged_failures (unmarshal : Unmarshal) (fmt : Fmt) (input : List Char)
    (keys : List String)
    (hnull : ∀ l ∈ inputLines input, l.isRead = true → unmarshal l.raw ≠ Except.ok none) :
    ∃ out, json2csv unmarshal fmt (bufioReader input) keys false = some out ∧
      out.written.length + (out.log.filter LogEntry.isDecodeError).length =
        ((inputLines input).filter InputLine.isRead).length ∧
      ∀ l ∈ inputLines input, l.isRead = true → decodesTo unmarshal l.raw = none →
        ∃ n err, LogEntry.decodeError n err l.raw ∈ out.log := by
  refine ⟨_, json2csv_eq _ _ _ _ _, ?_, ?_⟩
  · have hps : ∀ p ∈ (jsonIterator (bufioReader input)).placeholders,
        unmarshal p.line ≠ Except.ok none := by
      intro p hp
      have hmem : p.line ∈ linesRead (bufioReader input) := by
        rw [← jsonIterator_lines]
        exact List.mem_map_of_mem _ hp
      rw [linesRead_bufioReader] at hmem
      obtain ⟨l, hl, hraw⟩ := List.mem_map.mp hmem
      rw [← hraw]
      exact hnull l (List.mem_of_mem_filter hl) (List.mem_filter.mp hl).2
    have hcount := rows_plus_failures unmarshal fmt keys _ hps
    have hlen : (jsonIterator (bufioReader input)).placeholders.length =
        ((inputLines input).filter InputLine.isRead).length := by
      have := congrArg List.length (jsonIterator_lines (bufioReader input))
      rw [linesRead_bufioReader] at this
      simpa using this
    rw [jsonIterator_lines] at hcount
    simp only [bufioReader_log, List.append_nil, if_false, Bool.false_eq_true, List.nil_append]
    rw [hcount, hlen]
  · intro l hl hread hnone
    have hmem : l.raw ∈ linesRead (bufioReader input) := by
      rw [linesRead_bufioReader]
      exact List.mem_map_of_mem _ (List.mem_filter.mpr ⟨hl, hread⟩)
    rw [← jsonIterator_lines] at hmem
    obtain ⟨p, hp, hline⟩ := List.mem_map.mp hmem
    cases hu : unmarshal l.raw with
    | error err =>
        refine ⟨p.line_count, err, ?_⟩
        have := decodeLog_mem unmarshal _ p hp err (by rw [hline]; exact hu)
        rw [hline] at this
        simp [this]
    | ok data =>
        cases data with
        | none => exact absurd hu (hnull l hl hread)
        | some m => simp [decodesTo, hu] at hnone

theorem rows_and_logged_failures_witness :
    (∀ l ∈ inputLines (lineX1 ++ '\n' :: '\n' :: inputWithBadLine), l.isRead = true →
      sampleUnmarshal l.raw ≠ Except.ok none) ∧
    ∃ out, json2csv sampleUnmarshal sampleFmt
        (bufioReader (lineX1 ++ '\n' :: '\n' :: inputWithBadLine)) ["x"] false = some out ∧
      out.written.length + (out.log.filter LogEntry.isDecodeError).length =
        ((inputLines (lineX1 ++ '\n' :: '\n' :: inputWithBadLine)).filter
          InputLine.isRead).length ∧
      ∀ l ∈ inputLines (lineX1 ++ '\n' :: '\n' :: inputWithBadLine), l.isRead = true →
        decodesTo sampleUnmarshal l.raw = none →
        ∃ n err, LogEntry.decodeError n err l.raw ∈ out.log :=
  have h : ∀ l ∈ inputLines (lineX1 ++ '\n' :: '\n' :: inputWithBadLine), l.isRead = true →
      sampleUnmarshal l.raw ≠ Except.ok none := by
    intro l hl _
    have hall : inputLines (lineX1 ++ '\n' :: '\n' :: inputWithBadLine) =
        [⟨lineX1, true⟩, ⟨[], true⟩, ⟨lineX1, true⟩, ⟨"NOTJSON".toList, true⟩,
          ⟨lineX2, false⟩] := by decide
    rw [hall] at hl
    simp only [List.mem_cons, List.mem_singleton, List.not_mem_nil, or_false] at hl
    rcases hl with rfl | rfl | rfl | rfl | rfl <;> intro hc <;> cases hc
  ⟨h, rows_and_logged_failures sampleUnmarshal sampleFmt _ ["x"] h⟩

/-- C5 as stated fails.  Over `{"x":1}` followed by a blank line there is one
non-empty line, one row and one logged decode failure (the blank line's), so the
rows are not the non-empty lines less the logged failures; and the line `null`
is non-empty, gives no row, and nothing is logged for it. -/
theorem blank_and_null_lines_miscounted :
    (json2csv sampleUnmarshal sampleFmt (bufioReader (lineX1 ++ ['\n', '\n'])) ["x"] false =
        some ⟨[["1"]], [LogEntry.decodeError 2 "invalid JSON" ['\n']]⟩ ∧
      ((inputLines (lineX1 ++ ['\n', '\n'])).filter fun l => decide (l.content ≠ [])).length
        = 1) ∧
    (json2csv sampleUnmarshal sampleFmt (bufioReader "null\n".toList) ["x"] false =
        some ⟨[], []⟩ ∧
      ((inputLines "null\n".toList).filter fun l => decide (l.content ≠ [])).length = 1) := by
  decide

/-- C6 at `{"a":{"b":1e19}}`: the value 10^19 is a `float64` without fractional
part, whose decimal string is `10000000000000000000`, and `get_value` renders it
as the least `int` instead. -/
theorem get_value_integral_overflow (fmt : Fmt) :
    Float64.representable (Float64.fin (5 ^ 19) 19) ∧
    (Float64.fin (5 ^ 19) 19).denotesInt (10 ^ 19) ∧
    Sprintf_d (10 ^ 19) = "10000000000000000000" ∧
    get_value fmt
      (some [("a", Value.object [("b", Value.number (Float64.fin (5 ^ 19) 19))])])
      ["a", "b"] = some "-9223372036854775808" := by
  refine ⟨⟨by decide, by decide, by decide⟩, ?_, by decide, rfl⟩
  simp only [Float64.denotesInt]
  decide

/-- C7 as the code has it: a read that returns no bytes is skipped.  No
placeholder is ever sent for such a read and no decode failure is ever logged
for an empty line, and a read of no bytes with a nil error changes neither the
lines handed over for decoding nor the rows written. -/
theorem zero_byte_read_skipped (unmarshal : Unmarshal) (fmt : Fmt) (keys : List String)
    (printHeader : Bool) (r pre post : LineReader) :
    (∀ p ∈ (jsonIterator r).placeholders, p.line ≠ []) ∧
    (∃ out, json2csv unmarshal fmt r keys printHeader = some out ∧
      ∀ n err, LogEntry.decodeError n err [] ∉ out.log) ∧
    (jsonIterator (pre ++ ⟨[], none⟩ :: post)).placeholders.map (fun p => p.line) =
      (jsonIterator (pre ++ post)).placeholders.map (fun p => p.line) ∧
    (json2csv unmarshal fmt (pre ++ ⟨[], none⟩ :: post) keys printHeader).map
        (fun o => o.written) =
      (json2csv unmarshal fmt (pre ++ post) keys printHeader).map (fun o => o.written) := by
  refine ⟨placeholder_line_ne_nil r, ⟨_, json2csv_eq _ _ _ _ _, ?_⟩, ?_, ?_⟩
  · intro n err hmem
    simp only [List.mem_append] at hmem
    rcases hmem with hmem | hmem
    · obtain ⟨p, hp, hline⟩ := decodeLog_line unmarshal _ n err [] hmem
      exact placeholder_line_ne_nil r p hp hline
    · obtain ⟨msg, hmsg⟩ := loop_log_mem r none 0 _ hmem
      cases hmsg
  · rw [jsonIterator_lines, jsonIterator_lines, linesRead_skip]
  · rw [json2csv_eq, json2csv_eq, linesRead_skip]
    rfl

theorem zero_byte_read_skipped_witness :
    (⟨lineX1 ++ ['\n'], 1⟩ : Placeholder) ∈
      (jsonIterator [⟨lineX1 ++ ['\n'], none⟩, ⟨[], none⟩, ⟨lineX2, some ReadErr.EOF⟩]).placeholders ∧
    (⟨lineX1 ++ ['\n'], 1⟩ : Placeholder).line ≠ [] ∧
    (jsonIterator ([⟨lineX1 ++ ['\n'], none⟩] ++ ⟨[], none⟩ ::
        [⟨lineX2, some ReadErr.EOF⟩])).placeholders.map (fun p => p.line) =
      (jsonIterator ([⟨lineX1 ++ ['\n'], none⟩] ++
        [⟨lineX2, some ReadErr.EOF⟩])).placeholders.map (fun p => p.line) :=
  have hmem : (⟨lineX1 ++ ['\n'], 1⟩ : Placeholder) ∈
      (jsonIterator [⟨lineX1 ++ ['\n'], none⟩, ⟨[], none⟩,
        ⟨lineX2, some ReadErr.EOF⟩]).placeholders := by decide
  ⟨hmem,
    (zero_byte_read_skipped sampleUnmarshal sampleFmt ["x"] false
      [⟨lineX1 ++ ['\n'], none⟩, ⟨[], none⟩, ⟨lineX2, some ReadErr.EOF⟩]
      [⟨lineX1 ++ ['\n'], none⟩] [⟨lineX2, some ReadErr.EOF⟩]).1 _ hmem,
    (zero_byte_read_skipped sampleUnmarshal sampleFmt ["x"] false
      [⟨lineX1 ++ ['\n'], none⟩, ⟨[], none⟩, ⟨lineX2, some ReadErr.EOF⟩]
      [⟨lineX1 ++ ['\n'], none⟩] [⟨lineX2, some ReadErr.EOF⟩]).2.2.1⟩

/-- C7 as stated fails: in `{"x":1}`, a blank line, `{"x":2}` the blank line is
read as the one byte of its newline, a placeholder is sent for it, and its decode
fails and is logged as the failure of line 2. -/
theorem blank_line_is_decoded :
    (jsonIterator (bufioReader (lineX1 ++ '\n' :: '\n' :: lineX2))).placeholders =
      [⟨lineX1 ++ ['\n'], 1⟩, ⟨['\n'], 2⟩, ⟨lineX2, 3⟩] ∧
    json2csv sampleUnmarshal sampleFmt (bufioReader (lineX1 ++ '\n' :: '\n' :: lineX2))
        ["x"] false =
      some ⟨[["1"], ["2"]], [LogEntry.decodeError 2 "invalid JSON" ['\n']]⟩ := by
  decide

/-- C8: with header mode on, the first row written is the list of keys as given,
not split at the dots, and the data rows follow it; with header mode off only
the data rows are written; on the empty input the header is the only row; keys
`a` and `b.c` with the input `{"a":1,"b":{"c":2}}` give the header row `a`,
`b.c` and then the data row `1`, `2`. -/
theorem header_row_first (unmarshal : Unmarshal) (fmt : Fmt) (r : LineReader)
    (keys : List String) :
    (∃ o1 o0, json2csv unmarshal fmt r keys true = some o1 ∧
      json2csv unmarshal fmt r keys false = some o0 ∧
      o1.written = keys :: o0.written ∧
      o0.written = rowsOf unmarshal fmt keys (linesRead r)) ∧
    (∃ o, json2csv unmarshal fmt (bufioReader []) keys true = some o ∧ o.written = [keys]) ∧
    (unmarshal lineAB = Except.ok (some recordAB) →
      ∃ o, json2csv unmarshal fmt (bufioReader lineAB) ["a", "b.c"] true = some o ∧
        o.written = [["a", "b.c"], ["1", "2"]]) := by
  refine ⟨⟨_, _, json2csv_eq _ _ _ _ _, json2csv_eq _ _ _ _ _, ?_, ?_⟩,
    ⟨_, json2csv_eq _ _ _ _ _, ?_⟩, ?_⟩
  · simp
  · simp
  · simp [linesRead_bufioReader_nil, rowsOf]
  · intro h
    refine ⟨_, json2csv_eq _ _ _ _ _, ?_⟩
    have hl : linesRead (bufioReader lineAB) = [lineAB] := by decide
    have hr : rowOf fmt ["a", "b.c"] recordAB = ["1", "2"] := rfl
    simp [hl, rowsOf, decodesTo, h, hr]

theorem header_row_first_witness :
    ∃ o, json2csv sampleUnmarshal sampleFmt (bufioReader lineAB) ["a", "b.c"] true = some o ∧
      o.written = [["a", "b.c"], ["1", "2"]] :=
  (header_row_first sampleUnmarshal sampleFmt [] []).2.2 rfl

/-- C9 as the code has it: a read that returns bytes `b` with an error other
than `io.EOF` ends the reading as a read of no bytes with `io.EOF` does: the
same placeholders are sent and the same rows written, the bytes `b` being
dropped; when no earlier read reported an error, the error is logged and none of
the later reads is made. -/
theorem failed_read_ends_reading (unmarshal : Unmarshal) (fmt : Fmt) (keys : List String)
    (printHeader : Bool) (pre post : LineReader) (b : List Char) (msg : String) :
    (jsonIterator (pre ++ ⟨b, some (ReadErr.other msg)⟩ :: post)).placeholders =
      (jsonIterator (pre ++ ⟨[], some ReadErr.EOF⟩ :: post)).placeholders ∧
    (json2csv unmarshal fmt (pre ++ ⟨b, some (ReadErr.other msg)⟩ :: post) keys
        printHeader).map (fun o => o.written) =
      (json2csv unmarshal fmt (pre ++ ⟨[], some ReadErr.EOF⟩ :: post) keys
        printHeader).map (fun o => o.written) ∧
    ((∀ x ∈ pre, x.err = none) →
      (jsonIterator (pre ++ ⟨b, some (ReadErr.other msg)⟩ :: post)).unread = post ∧
      (jsonIterator (pre ++ ⟨[], some ReadErr.EOF⟩ :: post)).unread = post ∧
      LogEntry.inputError msg ∈
        (jsonIterator (pre ++ ⟨b, some (ReadErr.other msg)⟩ :: post)).log) := by
  have hp := loop_failed_read pre post b msg 0
  refine ⟨hp, ?_, fun hpre => loop_failed_read_unread pre post b msg hpre 0⟩
  rw [json2csv_eq, json2csv_eq, ← jsonIterator_lines, ← jsonIterator_lines]
  simp only [jsonIterator, hp, Option.map_some']

theorem failed_read_ends_reading_witness :
    (∀ x ∈ [(⟨lineX1 ++ ['\n'], none⟩ : ReadResult)], x.err = none) ∧
    (jsonIterator ([⟨lineX1 ++ ['\n'], none⟩] ++
        ⟨lineX2, some (ReadErr.other "read failed")⟩ :: [⟨lineX1, none⟩])).unread =
      [⟨lineX1, none⟩] ∧
    (jsonIterator ([⟨lineX1 ++ ['\n'], none⟩] ++
        ⟨[], some ReadErr.EOF⟩ :: [⟨lineX1, none⟩])).unread = [⟨lineX1, none⟩] ∧
    LogEntry.inputError "read failed" ∈
      (jsonIterator ([⟨lineX1 ++ ['\n'], none⟩] ++
        ⟨lineX2, some (ReadErr.other "read failed")⟩ :: [⟨lineX1, none⟩])).log :=
  have h : ∀ x ∈ [(⟨lineX1 ++ ['\n'], none⟩ : ReadResult)], x.err = none := by
    intro x hx
    simp only [List.mem_singleton] at hx
    rw [hx]
  ⟨h, (failed_read_ends_reading sampleUnmarshal sampleFmt ["x"] false
    [⟨lineX1 ++ ['\n'], none⟩] [⟨lineX1, none⟩] lineX2 "read failed").2.2 h⟩

/-- C9 as stated fails: when the last read returns the bytes `{"x":1}` with an
error other than `io.EOF`, no placeholder is sent and no row written; when it
returns the same bytes with `io.EOF`, the line is decoded and its row written. -/
theorem failed_read_drops_bytes :
    (jsonIterator [⟨lineX1, some (ReadErr.other "read failed")⟩]).placeholders = [] ∧
    (jsonIterator [⟨lineX1, some ReadErr.EOF⟩]).placeholders = [⟨lineX1, 1⟩] ∧
    json2csv sampleUnmarshal sampleFmt [⟨lineX1, some (ReadErr.other "read failed")⟩]
        ["x"] false = some ⟨[], [LogEntry.inputError "read failed"]⟩ ∧
    json2csv sampleUnmarshal sampleFmt [⟨lineX1, some ReadErr.EOF⟩] ["x"] false =
      some ⟨[["1"]], []⟩ := by
  decide

/-- C10: `get_value` fails on the empty path, and `json2csv` never hands it one:
a key split at its dots has at least one segment, `get_value` on a path of at
least one segment returns after as many calls as the path has segments, and
`json2csv` returns without a panic for every reader and key list. -/
theorem field_extraction_in_range (unmarshal : Unmarshal) (fmt : Fmt) (r : LineReader)
    (keys : List String) (printHeader : Bool) (data : GoMap) (key k : String)
    (path : List String) :
    get_value fmt data [] = none ∧
    1 ≤ (strings.Split key).length ∧
    (∃ v, get_value_counted fmt data (strings.Split key) =
      (some v, (strings.Split key).length)) ∧
    (∃ v, get_value_counted fmt data (k :: path) = (some v, (k :: path).length)) ∧
    (∃ out, json2csv unmarshal fmt r keys printHeader = some out) := by
  have hcount : ∀ p : List String, p ≠ [] →
      ∃ v, get_value_counted fmt data p = (some v, p.length) := by
    intro p hp
    obtain ⟨v, hv⟩ := get_value_some fmt p hp data
    refine ⟨v, ?_⟩
    rw [Prod.ext_iff]
    exact ⟨by rw [get_value_counted_fst, hv], get_value_counted_snd fmt p hp data⟩
  refine ⟨rfl, ?_, hcount _ (Split_ne_nil key), hcount _ (by simp), _, json2csv_eq _ _ _ _ _⟩
  have := Split_ne_nil key
  exact List.length_pos.mpr this

end Json2csv
